import Mathlib

/-!
Shallow embedding of the `alloyai_client` node manager
(`src/alloyai_client/node_manager.py`, `types.py`, `alloyai_client.py`).

Conventions of the embedding:
* Python `dict` (insertion ordered, unique keys) is modelled as an
  association list `Dict α := List (String × α)`; `Dict.get` reads the
  first matching key, `Dict.set` updates the first matching entry in
  place or appends, `Dict.erase` removes the first matching entry.
* Python floats are modelled as rationals; `float("inf")` as `⊤` in
  `WithTop ℚ`.
* Network effects are modelled by an `Env` record: `fetch` maps a node's
  base URL to the result of `GET /models`, `now` stands for `time.time()`.
* Exceptions are modelled with `Except` / explicit error results.
-/

namespace Alloy

/-- Embedding of `types.py` `Modality`: enum {TEXT, IMAGE, AUDIO, VIDEO}. -/
inductive Modality
  | text
  | image
  | audio
  | video
deriving DecidableEq, Repr

/-- Embedding of `types.py` `AllocationStatus`: enum {ALLOCATED, QUEUE, DEALLOCATED}. -/
inductive AllocationStatus
  | allocated
  | queue
  | deallocated
deriving DecidableEq, Repr

/-- A Python `Set[Modality]` (used by pydantic for capability inputs and
outputs and for `categories_by_model_id`), modelled by membership flags. -/
structure ModalitySet where
  hasText : Bool := false
  hasImage : Bool := false
  hasAudio : Bool := false
  hasVideo : Bool := false
deriving DecidableEq, Repr

namespace ModalitySet

def empty : ModalitySet := {}

def contains (s : ModalitySet) : Modality → Bool
  | .text => s.hasText
  | .image => s.hasImage
  | .audio => s.hasAudio
  | .video => s.hasVideo

def add (s : ModalitySet) : Modality → ModalitySet
  | .text => { s with hasText := true }
  | .image => { s with hasImage := true }
  | .audio => { s with hasAudio := true }
  | .video => { s with hasVideo := true }

def union (s t : ModalitySet) : ModalitySet :=
  { hasText := s.hasText || t.hasText
    hasImage := s.hasImage || t.hasImage
    hasAudio := s.hasAudio || t.hasAudio
    hasVideo := s.hasVideo || t.hasVideo }

/-- Python truthiness of a set: `not s` iff the set is empty. -/
def isEmpty (s : ModalitySet) : Bool :=
  !s.hasText && !s.hasImage && !s.hasAudio && !s.hasVideo

end ModalitySet

/-- Embedding of `types.py` `ModelCapability`. -/
structure ModelCapability where
  inputs : ModalitySet
  outputs : ModalitySet
  name : Option String := none
deriving DecidableEq, Repr

/-- Embedding of `types.py` `AlloyModel`.  `active_requests` is a Python `int`. -/
structure AlloyModel where
  model_id : String
  active_requests : Int
  is_supported : Bool
  supports_concurrent_requests : Bool := false
  capabilities : List ModelCapability
  allocation_status : AllocationStatus
deriving DecidableEq, Repr

/-- Embedding of `types.py` `AlloyModelsResponse`: four lists keyed by output modality. -/
structure AlloyModelsResponse where
  image : List AlloyModel := []
  audio : List AlloyModel := []
  video : List AlloyModel := []
  text : List AlloyModel := []
deriving DecidableEq, Repr

/-! Part: Python dictionaries as association lists -/

/-- A Python `dict` with string keys: insertion-ordered association list. -/
def Dict (α : Type) : Type := List (String × α)

namespace Dict

variable {α : Type}

/-- Lookup, Python `d.get(k)` / `d[k]`: value at the first entry whose key is `k`. -/
def get (d : Dict α) (k : String) : Option α :=
  ((d : List (String × α)).find? (fun p => p.1 = k)).map Prod.snd

/-- Assignment, Python `d[k] = v`: replace the value of the first entry with key `k`,
or append a new entry (Python dicts keep the original key position). -/
def set (d : Dict α) (k : String) (v : α) : Dict α :=
  match d with
  | [] => [(k, v)]
  | p :: rest => if p.1 = k then (k, v) :: rest else p :: set rest k v

/-- Removal, Python `d.pop(k, None)`: drop the first entry with key `k`. -/
def erase (d : Dict α) (k : String) : Dict α :=
  (d : List (String × α)).eraseP (fun p => p.1 = k)

/-- The values of the dictionary, in order. -/
def values (d : Dict α) : List α :=
  (d : List (String × α)).map Prod.snd

/-- The keys of the dictionary, in order. -/
def keys (d : Dict α) : List String :=
  (d : List (String × α)).map Prod.fst

/-- Python truthiness: `not d` iff `d` has no entries. -/
def isEmpty (d : Dict α) : Bool :=
  match d with
  | [] => true
  | _ :: _ => false

/-- The association list underlying a dictionary. -/
def entries (d : Dict α) : List (String × α) := d

end Dict

/-! Part: Node state (`node_manager.py` `_NodeState`) -/

/-- Embedding of `node_manager.py` `_NodeState`.  The `client` handle is represented by
its `base_url` (the only datum the embedding needs to model fetches). -/
structure NodeState where
  name : String
  base_url : String
  weight : ℚ
  models : Dict AlloyModel := []
  categories_by_model_id : Dict ModalitySet := []
  supported_model_count : Nat := 0
  remote_active_total : Int := 0
  local_inflight_total : Nat := 0
  local_inflight_by_model : Dict Nat := []
  last_refresh_ts : Nat := 0
  last_refresh_error : Option String := none

/-- Embedding of `node_manager.py` `NodeQueryMode`. -/
inductive NodeQueryMode
  | local_only
  | query_everytime
  | controlled_querying
deriving DecidableEq, Repr

/-- Embedding of `node_manager.py` `NodeConfig` (a bare URL string is a `NodeConfig`
with `name = none` and `weight = 1`). -/
structure NodeConfig where
  base_url : String
  name : Option String := none
  weight : ℚ := 1
deriving DecidableEq, Repr

/-- The error conditions the manager can raise, one constructor per
`raise` site reachable from the embedded operations. -/
inductive ManagerError
  | emptyNodes
  | nonPositiveMaxNodes
  | strictInitFailed (errors : List (String × String))
  | noValidModels
  | noCandidateNode (model_id : String)
  | streamingUnsupported (operation : String)
  | backend (message : String)
deriving DecidableEq, Repr

/-- The environment a manager call runs in: `fetch` gives the outcome of
`GET /models` per base URL, `chat`/`audio` the outcome of the non-streaming
backend calls, `now` the current `time.time()` reading. -/
structure Env where
  fetch : String → Except String AlloyModelsResponse
  chatCall : String → Except String Unit := fun _ => .ok ()
  audioCall : String → Except String Unit := fun _ => .ok ()
  now : Nat := 1

/-- Embedding of `node_manager.py` `AlloyNodeManager` (configuration and node list;
the lock is implicit: the embedding is the sequential semantics of the
lock-serialized operations).  `max_nodes_to_query` is kept as a `Nat`,
justified by the constructor's `max_nodes_to_query <= 0` rejection. -/
structure Manager where
  mode : NodeQueryMode
  max_nodes_to_query : Nat
  nodes : List NodeState

/-! Part: `_index_models` -/

/-- One step of `_index_models`'s inner loop: record the model under its
id if unseen, add the current modality to its category set, and copy
capabilities onto a stored model that had none. -/
def indexOne (modality : Modality) (acc : Dict AlloyModel × Dict ModalitySet)
    (model : AlloyModel) : Dict AlloyModel × Dict ModalitySet :=
  let models := acc.1
  let categories := acc.2
  let models :=
    match models.get model.model_id with
    | none => models.set model.model_id model
    | some _ => models
  let categories :=
    categories.set model.model_id
      (((categories.get model.model_id).getD ModalitySet.empty).add modality)
  let models :=
    match models.get model.model_id with
    | some existing =>
        if existing.capabilities = [] ∧ model.capabilities ≠ [] then
          models.set model.model_id { existing with capabilities := model.capabilities }
        else models
    | none => models
  (models, categories)

/-- Walk a sequence of `(modality, model list)` pairs through `indexOne`
(the shape of `_index_models`' nested loops). -/
def indexWalk (walk : List (Modality × List AlloyModel)) :
    Dict AlloyModel × Dict ModalitySet :=
  walk.foldl (fun acc p => p.2.foldl (indexOne p.1) acc)
    (([] : Dict AlloyModel), ([] : Dict ModalitySet))

/-- The `grouped_lists` iteration order of `_index_models` and of the
response structure: image, audio, video, text. -/
def responseWalk (response : AlloyModelsResponse) :
    List (Modality × List AlloyModel) :=
  [(Modality.image, response.image), (Modality.audio, response.audio),
   (Modality.video, response.video), (Modality.text, response.text)]

/-- Embedding of `node_manager.py` `_index_models`: walk the four modality lists in
order, producing the per-node `models` dict and category sets. -/
def indexModels (response : AlloyModelsResponse) :
    Dict AlloyModel × Dict ModalitySet :=
  indexWalk (responseWalk response)

/-! Part: Scoring (`_node_score`) -/

/-- Status penalty table of `node_manager.py` `_node_score`
(`{ALLOCATED: 0.0, DEALLOCATED: 1.0, QUEUE: 4.0}.get(status, 1.5)`; the
enum has exactly the three listed members, so the `1.5` default is dead). -/
def statusPenalty : AllocationStatus → ℚ
  | .allocated => 0
  | .deallocated => 1
  | .queue => 4

/-- Embedding of `node_manager.py` `_node_score`.  `float("inf")` is `⊤`. -/
def nodeScore (node : NodeState) (model_id : String) : WithTop ℚ :=
  match node.models.get model_id with
  | none => ⊤
  | some model =>
      if model.is_supported = false then ⊤
      else
        let remote_active : Int := model.active_requests
        let local_active_model : Int := ((node.local_inflight_by_model.get model_id).getD 0 : Nat)
        let active_requests : ℚ := (remote_active : ℚ) + (local_active_model : ℚ)
        let load_score : ℚ :=
          if model.supports_concurrent_requests = false then active_requests * 10
          else active_requests
        let scarcity_bias : ℚ := (max node.supported_model_count 1 : Nat) * (1 / 100)
        let weight_bias : ℚ := -(max node.weight 0) * (1 / 4)
        let node_load_bias : ℚ := (node.local_inflight_total : ℚ) * (1 / 10)
        let remote_load_bias : ℚ := (node.remote_active_total : ℚ) * (1 / 100)
        ((load_score + statusPenalty model.allocation_status + scarcity_bias
            + node_load_bias + remote_load_bias + weight_bias : ℚ) : WithTop ℚ)

/-- Embedding of `node_manager.py` `_is_model_supported`. -/
def isModelSupported (node : NodeState) (model_id : String) : Bool :=
  match node.models.get model_id with
  | none => false
  | some model => model.is_supported

/-! Part: `refresh_nodes` -/

/-- A node at index `i` is shadowed when a later node carries the same
name: `node_map = {node.name: node for node in self._nodes}` keeps only
the last node per name. -/
def shadowed (nodes : List NodeState) (i : Nat) (node : NodeState) : Bool :=
  (nodes.drop (i + 1)).any (fun n2 => n2.name = node.name)

/-- Whether `refresh_nodes` fetches the node at index `i`: it must be the
`node_map` survivor for its name, and (when a non-empty `node_names` is
given) its name must be listed.  `set(node_names) if node_names else
set(node_map.keys())` treats `None` and `[]` alike. -/
def targeted (nodes : List NodeState) (node_names : Option (List String))
    (i : Nat) (node : NodeState) : Bool :=
  !shadowed nodes i node &&
    (match node_names with
     | none => true
     | some l => l.isEmpty || l.contains node.name)

/-- The per-node success branch of `refresh_nodes`: replace `models` and
`categories_by_model_id`, recompute `supported_model_count` and
`remote_active_total`, stamp `last_refresh_ts`, clear the error. -/
def applyFetch (env : Env) (node : NodeState) : NodeState :=
  match env.fetch node.base_url with
  | .error e => { node with last_refresh_error := some e }
  | .ok response =>
      let indexed := indexModels response
      { node with
        models := indexed.1
        categories_by_model_id := indexed.2
        supported_model_count :=
          ((indexed.1.values).filter (fun m => m.is_supported)).length
        remote_active_total := ((indexed.1.values).map (fun m => m.active_requests)).sum
        last_refresh_ts := env.now
        last_refresh_error := none }

/-- The error-map contribution of one node's fetch. -/
def fetchError (env : Env) (node : NodeState) : Option (String × String) :=
  match env.fetch node.base_url with
  | .error e => some (node.name, e)
  | .ok _ => none

/-- Embedding of `node_manager.py` `refresh_nodes` over the node list:
fetch inventory for every targeted node, apply successes, collect
`{name: message}` for failures.  (The thread pool only affects completion
order, which no observable depends on; the embedding applies results in
node-list order.) -/
def refreshNodeList (env : Env) (nodes : List NodeState)
    (node_names : Option (List String)) : List NodeState × List (String × String) :=
  (nodes.enum.map
    (fun p => if targeted nodes node_names p.1 p.2 then applyFetch env p.2 else p.2),
   nodes.enum.filterMap
     (fun p => if targeted nodes node_names p.1 p.2 then fetchError env p.2 else none))

/-- Embedding of `node_manager.py` `refresh_nodes` at the manager level. -/
def refreshNodes (env : Env) (mgr : Manager)
    (node_names : Option (List String) := none) : Manager × List (String × String) :=
  let r := refreshNodeList env mgr.nodes node_names
  ({ mgr with nodes := r.1 }, r.2)

/-! Part: Construction (`AlloyNodeManager.__init__`) -/

/-- Build the initial `_NodeState` for one `NodeConfig`.  The source
computes `node.name or f"node-<index>"`, so both a missing name and the
falsy empty string fall back to the positional default. -/
def mkNodeState (index : Nat) (config : NodeConfig) : NodeState :=
  { name :=
      match config.name with
      | none => "node-" ++ toString index
      | some s => if s = "" then "node-" ++ toString index else s
    base_url := config.base_url
    weight := config.weight }

/-- The initial node-state list the constructor builds from its configs. -/
def initialNodes (configs : List NodeConfig) : List NodeState :=
  configs.enum.map (fun p => mkNodeState p.1 p.2)

/-- Embedding of `AlloyNodeManager.__init__`: validate the arguments, build the node
states, run the initial full refresh, then apply the `strict_init` and
all-models-empty checks. -/
def initManager (env : Env) (configs : List NodeConfig) (mode : NodeQueryMode)
    (max_nodes_to_query : Int) (strict_init : Bool) : Except ManagerError Manager :=
  if configs = [] then .error .emptyNodes
  else if max_nodes_to_query ≤ 0 then .error .nonPositiveMaxNodes
  else
    let mgr : Manager :=
      { mode := mode
        max_nodes_to_query := max_nodes_to_query.toNat
        nodes := initialNodes configs }
    let refreshed := refreshNodes env mgr
    if strict_init = true ∧ refreshed.2 ≠ [] then
      .error (.strictInitFailed refreshed.2)
    else if refreshed.1.nodes.all (fun node => node.models.isEmpty) then
      .error .noValidModels
    else .ok refreshed.1

/-! Part: Selection (`_select_node_for_model`) -/

/-- The candidate indices for a model: nodes whose cached entry lists the
model as supported, in node-list order. -/
def candidates (mgr : Manager) (model_id : String) : List Nat :=
  (List.range mgr.nodes.length).filter
    (fun i => match mgr.nodes[i]? with
              | some node => isModelSupported node model_id
              | none => false)

/-- Python `min(xs, key=f)`: fold keeping the current best, replacing it
only on a strictly smaller key, so the first minimum wins. -/
def pickMinBy {α : Type} (f : α → WithTop ℚ) (x : α) (xs : List α) : α :=
  xs.foldl (fun best y => if f y < f best then y else best) x

/-- Score of the node at index `i` of the manager (missing index scores
`⊤`; selection only evaluates it on valid indices). -/
def scoreAt (mgr : Manager) (model_id : String) (i : Nat) : WithTop ℚ :=
  match mgr.nodes[i]? with
  | some node => nodeScore node model_id
  | none => ⊤

/-- Name of the node at index `i` (used to target refreshes). -/
def nameAt (mgr : Manager) (i : Nat) : String :=
  match mgr.nodes[i]? with
  | some node => node.name
  | none => ""

/-- Steps 3-5 of `_select_node_for_model`: mode-dependent refresh, then
recollect candidates and pick the minimum-score one (first on ties). -/
def selectPhase2 (env : Env) (mgr : Manager) (model_id : String)
    (cands : List Nat) : Manager × Except ManagerError Nat :=
  let mgr2 :=
    match mgr.mode with
    | .local_only => mgr
    | .query_everytime =>
        (refreshNodes env mgr (some (cands.map (nameAt mgr)))).1
    | .controlled_querying =>
        let ranked := cands.mergeSort (fun i j => !(scoreAt mgr model_id j < scoreAt mgr model_id i))
        let to_query := ranked.take (min mgr.max_nodes_to_query ranked.length)
        (refreshNodes env mgr (some (to_query.map (nameAt mgr)))).1
  match candidates mgr2 model_id with
  | [] => (mgr2, .error (.noCandidateNode model_id))
  | c :: cs => (mgr2, .ok (pickMinBy (scoreAt mgr2 model_id) c cs))

/-- Embedding of `node_manager.py` `_select_node_for_model`: collect candidates; on an
empty set refresh all nodes and recollect (failing if still empty); then
run the mode-dependent phase.  Returns the possibly-refreshed manager
along with the chosen index or the error. -/
def selectNodeForModel (env : Env) (mgr : Manager) (model_id : String) :
    Manager × Except ManagerError Nat :=
  match candidates mgr model_id with
  | [] =>
      let mgr1 := (refreshNodes env mgr).1
      match candidates mgr1 model_id with
      | [] => (mgr1, .error (.noCandidateNode model_id))
      | c :: cs => selectPhase2 env mgr1 model_id (c :: cs)
  | c :: cs => selectPhase2 env mgr model_id (c :: cs)

/-! Part: In-flight accounting (`_increment_inflight` / `_decrement_inflight`) -/

/-- Embedding of `node_manager.py` `_increment_inflight` (per-node part). -/
def incNode (node : NodeState) (model_id : String) : NodeState :=
  { node with
    local_inflight_total := node.local_inflight_total + 1
    local_inflight_by_model :=
      node.local_inflight_by_model.set model_id
        (((node.local_inflight_by_model.get model_id).getD 0) + 1) }

/-- Embedding of `node_manager.py` `_decrement_inflight` (per-node part): the total
saturates at zero, and entries that would reach zero are removed. -/
def decNode (node : NodeState) (model_id : String) : NodeState :=
  let total :=
    if node.local_inflight_total > 0 then node.local_inflight_total - 1
    else node.local_inflight_total
  let active := (node.local_inflight_by_model.get model_id).getD 0
  let by_model :=
    if active ≤ 1 then node.local_inflight_by_model.erase model_id
    else node.local_inflight_by_model.set model_id (active - 1)
  { node with local_inflight_total := total, local_inflight_by_model := by_model }

/-- Apply a function to the node at index `i` (identity off-range). -/
def modifyNodeAt (mgr : Manager) (i : Nat) (f : NodeState → NodeState) : Manager :=
  match mgr.nodes[i]? with
  | some node => { mgr with nodes := mgr.nodes.set i (f node) }
  | none => mgr

def incrementAt (mgr : Manager) (i : Nat) (model_id : String) : Manager :=
  modifyNodeAt mgr i (fun node => incNode node model_id)

def decrementAt (mgr : Manager) (i : Nat) (model_id : String) : Manager :=
  modifyNodeAt mgr i (fun node => decNode node model_id)

/-! Part: Dispatch and streaming lifetimes (`_dispatch` / `_wrap_stream_result`) -/

/-- What a backend invocation does: return a plain mapping, raise
synchronously, or hand back a lazy iterator that will yield `items`
events and then either stop normally or raise (`failsAtEnd`). -/
inductive InvokeOutcome
  | mapping
  | raises (message : String)
  | iterator (items : Nat) (failsAtEnd : Bool)
deriving DecidableEq, Repr

/-- The state of a `_wrap_stream_result` generator: how many items the
underlying iterator will produce, how many were yielded, whether the
generator body has been entered (a first `next()` was issued), and
whether the generator is finished.  `started` matters because CPython
never enters the body — and hence never runs the `finally` block — when
a generator is closed or garbage-collected before its first `next()`. -/
structure WrappedStream where
  items : Nat
  failsAtEnd : Bool
  produced : Nat := 0
  started : Bool := false
  finished : Bool := false
deriving DecidableEq, Repr

/-- What a consumer does to the wrapped generator: pull the next item, or
close it (abandonment, garbage collection, or an exception thrown into
the consuming loop). -/
inductive ConsumerAction
  | next
  | close
deriving DecidableEq, Repr

/-- One consumer step against the wrapped generator.  A finished
generator does nothing (Python runs a generator's `finally` at most
once; later `next`/`close` on the exhausted generator are no-ops for
the counters).  A `next` enters the body, yielding the next item or —
on exhaustion or an error of the underlying iterator — running the
`finally` (one counter release).  A `close` (abandonment, garbage
collection, or an exception thrown in) runs the `finally` only when the
body had been entered: CPython closes a never-started generator without
executing it, so no release happens there.  Returns the manager, the
generator state, and how many counter releases the step performed. -/
def streamStep (i : Nat) (model_id : String) (mgr : Manager)
    (ws : WrappedStream) (a : ConsumerAction) : Manager × WrappedStream × Nat :=
  if ws.finished then (mgr, ws, 0)
  else
    match a with
    | .next =>
        if ws.produced < ws.items then
          (mgr, { ws with started := true, produced := ws.produced + 1 }, 0)
        else
          (decrementAt mgr i model_id,
            { ws with started := true, finished := true }, 1)
    | .close =>
        if ws.started then
          (decrementAt mgr i model_id, { ws with finished := true }, 1)
        else
          (mgr, { ws with finished := true }, 0)

/-- Run a consumer trace against the wrapped generator, accumulating the
number of counter releases it triggered. -/
def consumeStream (i : Nat) (model_id : String) :
    Manager → WrappedStream → List ConsumerAction → Manager × WrappedStream × Nat
  | mgr, ws, [] => (mgr, ws, 0)
  | mgr, ws, a :: rest =>
      let s := streamStep i model_id mgr ws a
      let r := consumeStream i model_id s.1 s.2.1 rest
      (r.1, r.2.1, s.2.2 + r.2.2)

/-- Embedding of `node_manager.py` `_dispatch`, starting from the chosen node index:
increment, invoke, and release (immediately for mappings and synchronous
errors, through the stream wrapper for iterators).  Returns the final
manager state and the total number of counter releases performed. -/
def dispatchRun (mgr : Manager) (i : Nat) (model_id : String) (stream : Bool)
    (outcome : InvokeOutcome) (actions : List ConsumerAction) : Manager × Nat :=
  let mgr1 := incrementAt mgr i model_id
  match outcome with
  | .raises _ => (decrementAt mgr1 i model_id, 1)
  | .mapping => (decrementAt mgr1 i model_id, 1)
  | .iterator items failsAtEnd =>
      if stream = true then
        let r := consumeStream i model_id mgr1
          { items := items, failsAtEnd := failsAtEnd } actions
        (r.1, r.2.2)
      else (decrementAt mgr1 i model_id, 1)

/-- Whether a consumer trace drives the wrapped generator to a terminal
condition (exhaustion, close, or the underlying error surfacing). -/
def reachesTerminal (i : Nat) (model_id : String) (mgr : Manager)
    (ws : WrappedStream) (actions : List ConsumerAction) : Bool :=
  (consumeStream i model_id mgr ws actions).2.1.finished

/-! Part: The chat / audio dispatch path (`AlloyNodeManager.chat` / `.audio`) -/

def baseUrlAt (mgr : Manager) (i : Nat) : String :=
  match mgr.nodes[i]? with
  | some node => node.base_url
  | none => ""

/-- The dispatch pipeline shared by `chat` and `audio`: select a node,
increment its counters, invoke the per-node client (which raises the
streaming-unsupported `ValueError` when `stream=true`, before any
request is sent), decrement, and surface the outcome. -/
def simpleDispatch (env : Env) (mgr : Manager) (operation : String)
    (model_id : String) (stream : Bool) (call : String → Except String Unit) :
    Manager × Except ManagerError Unit :=
  let sel := selectNodeForModel env mgr model_id
  match sel.2 with
  | .error e => (sel.1, .error e)
  | .ok i =>
      let mgr2 := incrementAt sel.1 i model_id
      let outcome : Except ManagerError Unit :=
        if stream = true then .error (.streamingUnsupported operation)
        else
          match call (baseUrlAt sel.1 i) with
          | .error e => .error (.backend e)
          | .ok _ => .ok ()
      (decrementAt mgr2 i model_id, outcome)

/-- Embedding of `AlloyNodeManager.chat` routed through `_dispatch` to
`AlloyClient.chat` (which raises on `stream=True`). -/
def managerChat (env : Env) (mgr : Manager) (model : String) (stream : Bool) :
    Manager × Except ManagerError Unit :=
  simpleDispatch env mgr "chat" model stream env.chatCall

/-- Embedding of `AlloyNodeManager.audio` routed through `_dispatch` to
`AlloyClient.audio` (which raises on `stream=True`). -/
def managerAudio (env : Env) (mgr : Manager) (model_id : String) (stream : Bool) :
    Manager × Except ManagerError Unit :=
  simpleDispatch env mgr "audio" model_id stream env.audioCall

/-! Part: Aggregation (`_combined_models_response`) -/

/-- The allocation-status promotion of `_combined_models_response`:
promote only upward under `ALLOCATED > QUEUE > DEALLOCATED`. -/
def promoteStatus (existing incoming : AllocationStatus) : AllocationStatus :=
  if existing ≠ AllocationStatus.allocated then
    if incoming = AllocationStatus.allocated then AllocationStatus.allocated
    else if existing = AllocationStatus.deallocated ∧ incoming = AllocationStatus.queue then
      AllocationStatus.queue
    else existing
  else existing

/-- Merging an additional per-node entry into an existing summary entry:
add `active_requests`, OR the two booleans, promote the status, copy
capabilities onto a summary that has none. -/
def mergeModel (existing incoming : AlloyModel) : AlloyModel :=
  { existing with
    active_requests := existing.active_requests + incoming.active_requests
    is_supported := existing.is_supported || incoming.is_supported
    supports_concurrent_requests :=
      existing.supports_concurrent_requests || incoming.supports_concurrent_requests
    allocation_status := promoteStatus existing.allocation_status incoming.allocation_status
    capabilities :=
      if existing.capabilities = [] ∧ incoming.capabilities ≠ [] then incoming.capabilities
      else existing.capabilities }

/-- One `(node, model_id)` step of `_combined_models_response`'s merge
loop: union the node's category tags for the id, then clone-or-merge the
model into the summary. -/
def mergeEntry (node : NodeState) (acc2 : Dict AlloyModel × Dict ModalitySet)
    (p : String × AlloyModel) : Dict AlloyModel × Dict ModalitySet :=
  let summary := acc2.1
  let cats := acc2.2
  let cats := cats.set p.1
    (ModalitySet.union ((cats.get p.1).getD ModalitySet.empty)
      ((node.categories_by_model_id.get p.1).getD ModalitySet.empty))
  match summary.get p.1 with
  | none => (summary.set p.1 p.2, cats)
  | some existing => (summary.set p.1 (mergeModel existing p.2), cats)

/-- The per-node pass of `_combined_models_response`: fold each of the
node's models into the summary. -/
def mergeStep (acc : Dict AlloyModel × Dict ModalitySet) (node : NodeState) :
    Dict AlloyModel × Dict ModalitySet :=
  node.models.entries.foldl (mergeEntry node) acc

/-- The merge phase of `_combined_models_response` over all nodes. -/
def modelSummary (nodes : List NodeState) : Dict AlloyModel × Dict ModalitySet :=
  nodes.foldl mergeStep (([] : Dict AlloyModel), ([] : Dict ModalitySet))

/-- Union of `outputs` across a capability list (the fallback grouping). -/
def outputsOfCapabilities (caps : List ModelCapability) : ModalitySet :=
  caps.foldl (fun s c => s.union c.outputs) ModalitySet.empty

/-- The modality tags used to place a summary entry into buckets:
`categories.get(model_id)`, falling back to the union of capability
outputs when the tag set is missing or empty. -/
def groupCategories (cats : Option ModalitySet) (model : AlloyModel) : ModalitySet :=
  match cats with
  | some s =>
      if s.isEmpty = true ∧ model.capabilities ≠ [] then
        outputsOfCapabilities model.capabilities
      else s
  | none =>
      if model.capabilities ≠ [] then outputsOfCapabilities model.capabilities
      else ModalitySet.empty

/-- The (unsorted) contents of one modality bucket. -/
def bucketOf (summary : Dict AlloyModel) (cats : Dict ModalitySet)
    (modality : Modality) : List AlloyModel :=
  (summary.entries.filter
    (fun p => (groupCategories (cats.get p.1) p.2).contains modality)).map Prod.snd

/-- Ascending-by-`model_id` comparison used for the final bucket sort. -/
def modelIdLe (a b : AlloyModel) : Bool :=
  !(decide (b.model_id < a.model_id))

/-- Embedding of `node_manager.py` `_combined_models_response`: merge all nodes, group
into the four modality buckets, sort each by `model_id`. -/
def combinedModels (nodes : List NodeState) : AlloyModelsResponse :=
  let sc := modelSummary nodes
  { image := (bucketOf sc.1 sc.2 Modality.image).mergeSort modelIdLe
    audio := (bucketOf sc.1 sc.2 Modality.audio).mergeSort modelIdLe
    video := (bucketOf sc.1 sc.2 Modality.video).mergeSort modelIdLe
    text := (bucketOf sc.1 sc.2 Modality.text).mergeSort modelIdLe }

/-- Embedding of `AlloyNodeManager.models`: refresh all nodes, then aggregate. -/
def managerModels (env : Env) (mgr : Manager) : Manager × AlloyModelsResponse :=
  let r := refreshNodes env mgr
  (r.1, combinedModels r.1.nodes)

/-! Part: specification-side helper notions used by the theorems -/

/-- The documented counter invariant: the per-node total matches the sum
of the per-model map and the map holds no zero-valued entries. -/
def inflightInvariant (node : NodeState) : Prop :=
  node.local_inflight_total = (node.local_inflight_by_model.values).sum ∧
  ∀ p ∈ node.local_inflight_by_model.entries, p.2 ≠ 0

/-- Rank of an allocation status under the documented priority
`ALLOCATED > QUEUE > DEALLOCATED`. -/
def statusRank : AllocationStatus → Nat
  | .allocated => 2
  | .queue => 1
  | .deallocated => 0

/-- Maximum of two statuses under `ALLOCATED > QUEUE > DEALLOCATED`. -/
def statusMax (a b : AllocationStatus) : AllocationStatus :=
  if statusRank a < statusRank b then b else a

/-- The last-seen snapshot of a given model across the node list, in
node order (one contribution per node that caches the model). -/
def nodeModelsFor (nodes : List NodeState) (model_id : String) : List AlloyModel :=
  nodes.filterMap (fun node => node.models.get model_id)

/-- Folding a stream of per-node snapshots of one model into the summary
entry, exactly as the merge loop does per key. -/
def mergeFold : Option AlloyModel → List AlloyModel → Option AlloyModel
  | o, [] => o
  | none, x :: xs => mergeFold (some x) xs
  | some e, x :: xs => mergeFold (some (mergeModel e x)) xs

/-- The bucket of a response for a given modality. -/
def bucketList (r : AlloyModelsResponse) : Modality → List AlloyModel
  | .image => r.image
  | .audio => r.audio
  | .video => r.video
  | .text => r.text

/-- All model occurrences of a response, across the four buckets. -/
def allEntries (r : AlloyModelsResponse) : List AlloyModel :=
  r.image ++ r.audio ++ r.video ++ r.text

/-- A response is duplicate-consistent when any two occurrences of one
`model_id` (within or across buckets) carry identical fields. -/
def responseConsistent (r : AlloyModelsResponse) : Prop :=
  ∀ y ∈ allEntries r, ∀ z ∈ allEntries r, y.model_id = z.model_id → y = z

/-- A node snapshot holding exactly the indexed content of a response
(the state a node reaches after one successful refresh of it). -/
def nodeFromResponse (r : AlloyModelsResponse) : NodeState :=
  { name := "node-0"
    base_url := ""
    weight := 1
    models := (indexModels r).1
    categories_by_model_id := (indexModels r).2 }

/-- Parsing (indexing) a response and aggregating the single resulting
node snapshot back into a response. -/
def singleNodeRoundTrip (r : AlloyModelsResponse) : AlloyModelsResponse :=
  combinedModels [nodeFromResponse r]

/-- All model occurrences of a walk, in walk order. -/
def allWalk (walk : List (Modality × List AlloyModel)) : List AlloyModel :=
  (walk.map Prod.snd).flatten

/-- Any two occurrences of one model id in the walk carry equal fields. -/
def walkConsistent (walk : List (Modality × List AlloyModel)) : Prop :=
  ∀ x ∈ allWalk walk, ∀ y ∈ allWalk walk, x.model_id = y.model_id → x = y

/-- A model id occurs somewhere in the walk. -/
def occursIn (walk : List (Modality × List AlloyModel)) (id : String) : Prop :=
  ∃ x ∈ allWalk walk, x.model_id = id

/-- A model id occurs in the walk under a given modality tag. -/
def occursAt (walk : List (Modality × List AlloyModel)) (b : Modality)
    (id : String) : Prop :=
  ∃ p ∈ walk, p.1 = b ∧ ∃ x ∈ p.2, x.model_id = id

/-- Whether the recorded category set of an id contains a modality. -/
def containsOf (cats : Dict ModalitySet) (id : String) (b : Modality) : Bool :=
  ((cats.get id).getD ModalitySet.empty).contains b

/-- The invariant the indexing fold maintains on its accumulator: stored
models keep their own id, come from the ambient occurrence list, and the
stored keys are unique. -/
def indexAccInv (whole : List AlloyModel)
    (acc : Dict AlloyModel × Dict ModalitySet) : Prop :=
  (∀ id x, (acc.1).get id = some x → x.model_id = id ∧ x ∈ whole) ∧
  ((acc.1).keys).Nodup

/-- Processing one modality list of the walk from a given accumulator. -/
def indexListFrom (b : Modality) (acc : Dict AlloyModel × Dict ModalitySet)
    (l : List AlloyModel) : Dict AlloyModel × Dict ModalitySet :=
  l.foldl (indexOne b) acc

/-- Processing a walk from a given accumulator. -/
def indexWalkFrom (acc : Dict AlloyModel × Dict ModalitySet)
    (walk : List (Modality × List AlloyModel)) :
    Dict AlloyModel × Dict ModalitySet :=
  walk.foldl (fun a p => indexListFrom p.1 a p.2) acc

/-! Part: concrete instances used as witnesses and counterexamples -/

/-- An environment whose every fetch succeeds with an empty inventory. -/
def envEmpty : Env :=
  { fetch := fun _ => Except.ok {} }

/-- A one-node manager whose cached inventory is empty. -/
def mgrNoModels : Manager :=
  { mode := NodeQueryMode.local_only
    max_nodes_to_query := 2
    nodes := [{ name := "node-0", base_url := "u0", weight := 1 }] }

/-- A supported image model snapshot used by concrete scenarios. -/
def sampleModel : AlloyModel :=
  { model_id := "qwen-image"
    active_requests := 1
    is_supported := true
    supports_concurrent_requests := true
    capabilities := [{ inputs := { hasText := true }, outputs := { hasImage := true } }]
    allocation_status := AllocationStatus.allocated }

/-- A response carrying only `sampleModel` in the image bucket. -/
def sampleResponse : AlloyModelsResponse :=
  { image := [sampleModel] }

/-- An environment serving `sampleResponse` everywhere. -/
def envSample : Env :=
  { fetch := fun _ => Except.ok sampleResponse }

/-- A node whose cache holds the indexed `sampleResponse`. -/
def sampleNode : NodeState :=
  { name := "node-0", base_url := "u0", weight := 1,
    models := (indexModels sampleResponse).1,
    categories_by_model_id := (indexModels sampleResponse).2,
    supported_model_count := 1, remote_active_total := 1 }

/-- A one-node manager whose node caches `sampleResponse`. -/
def mgrSample : Manager :=
  { mode := NodeQueryMode.local_only
    max_nodes_to_query := 2
    nodes := [sampleNode] }

/-- Two distinct nodes sharing one name (for the shadowing scenario). -/
def dupNodeA : NodeState :=
  { name := "n", base_url := "uA", weight := 1 }

/-- The later node carrying the same name as `dupNodeA`. -/
def dupNodeB : NodeState :=
  { name := "n", base_url := "uB", weight := 1 }

/-- A manager holding two nodes with a duplicated name. -/
def mgrDup : Manager :=
  { mode := NodeQueryMode.local_only
    max_nodes_to_query := 2
    nodes := [dupNodeA, dupNodeB] }

/-- A model placed in the image list although its only output is text. -/
def mismatchModel : AlloyModel :=
  { model_id := "m"
    active_requests := 0
    is_supported := true
    capabilities := [{ inputs := { hasText := true }, outputs := { hasText := true } }]
    allocation_status := AllocationStatus.allocated }

/-- A response whose bucket placement disagrees with capability outputs. -/
def mismatchResponse : AlloyModelsResponse :=
  { image := [mismatchModel] }

/-- A duplicated model id with conflicting `active_requests` values. -/
def dupModelA : AlloyModel :=
  { model_id := "d"
    active_requests := 0
    is_supported := true
    capabilities := []
    allocation_status := AllocationStatus.allocated }

/-- The conflicting second occurrence of the duplicated id. -/
def dupModelB : AlloyModel :=
  { model_id := "d"
    active_requests := 5
    is_supported := true
    capabilities := []
    allocation_status := AllocationStatus.allocated }

/-- A response with inconsistent duplicates of one model id. -/
def dupResponse : AlloyModelsResponse :=
  { image := [dupModelA], text := [dupModelB] }

/-! Part: dictionary lemmas -/

section DictLemmas

variable {α : Type}

theorem dget_nil (k : String) : Dict.get ([] : List (String × α)) k = none := rfl

theorem dget_cons (p : String × α) (l : List (String × α)) (k : String) :
    Dict.get (p :: l) k = if p.1 = k then some p.2 else Dict.get l k := by
  by_cases h : p.1 = k <;> simp [Dict.get, List.find?_cons, h]

theorem dset_nil (k : String) (v : α) :
    Dict.set ([] : List (String × α)) k v = [(k, v)] := rfl

theorem dset_cons (p : String × α) (l : List (String × α)) (k : String) (v : α) :
    Dict.set (p :: l) k v = if p.1 = k then (k, v) :: l else p :: Dict.set l k v := rfl

theorem dget_set_self (l : List (String × α)) (k : String) (v : α) :
    Dict.get (Dict.set l k v) k = some v := by
  induction l with
  | nil => simp [dset_nil, dget_cons]
  | cons p rest ih =>
      rw [dset_cons]
      by_cases h : p.1 = k
      · simp [h, dget_cons]
      · simp [h, dget_cons, ih]

theorem dget_set_ne (l : List (String × α)) (k k' : String) (v : α) (h : k ≠ k') :
    Dict.get (Dict.set l k v) k' = Dict.get l k' := by
  induction l with
  | nil => simp [dset_nil, dget_cons, h]
  | cons p rest ih =>
      rw [dset_cons]
      by_cases hp : p.1 = k
      · simp [hp, dget_cons, h]
      · simp [hp, dget_cons, ih]

theorem dset_eq_append (l : List (String × α)) (k : String) (v : α)
    (h : Dict.get l k = none) : Dict.set l k v = l ++ [(k, v)] := by
  induction l with
  | nil => rfl
  | cons p rest ih =>
      rw [dget_cons] at h
      by_cases hp : p.1 = k
      · simp [hp] at h
      · simp [hp] at h
        simp [dset_cons, hp, ih h]

theorem derase_cons (p : String × α) (l : List (String × α)) (k : String) :
    Dict.erase (p :: l) k = if p.1 = k then l else p :: Dict.erase l k := by
  by_cases hp : p.1 = k <;> simp [Dict.erase, List.eraseP_cons, hp]

theorem derase_append (l : List (String × α)) (k : String) (v : α)
    (h : Dict.get l k = none) : Dict.erase (l ++ [(k, v)]) k = l := by
  induction l with
  | nil => simp [Dict.erase, List.eraseP_cons]
  | cons p rest ih =>
      rw [dget_cons] at h
      by_cases hp : p.1 = k
      · simp [hp] at h
      · simp [hp] at h
        rw [List.cons_append, derase_cons]
        simp [hp, ih h]

theorem dset_dset (l : List (String × α)) (k : String) (v w : α) :
    Dict.set (Dict.set l k v) k w = Dict.set l k w := by
  induction l with
  | nil => simp [dset_nil, dset_cons]
  | cons p rest ih =>
      by_cases hp : p.1 = k
      · simp [dset_cons, hp]
      · simp [dset_cons, hp, ih]

theorem dset_get_self (l : List (String × α)) (k : String) (v : α)
    (h : Dict.get l k = some v) : Dict.set l k v = l := by
  induction l with
  | nil => simp [dget_nil] at h
  | cons p rest ih =>
      rw [dget_cons] at h
      by_cases hp : p.1 = k
      · simp [hp] at h
        obtain ⟨a, b⟩ := p
        simp only at hp h
        subst hp
        subst h
        simp [dset_cons]
      · simp [hp] at h
        simp [dset_cons, hp, ih h]

theorem dvalues_cons (p : String × α) (l : List (String × α)) :
    Dict.values (p :: l) = p.2 :: Dict.values l := rfl

theorem dvalues_append (l l' : List (String × α)) :
    Dict.values (l ++ l') = Dict.values l ++ Dict.values l' := by
  simp [Dict.values]

theorem dvalues_sum_set_none (l : List (String × Nat)) (k : String) (v : Nat)
    (h : Dict.get l k = none) :
    (Dict.values (Dict.set l k v)).sum = (Dict.values l).sum + v := by
  rw [dset_eq_append l k v h, dvalues_append]
  simp [Dict.values]

theorem dvalues_sum_set_some (l : List (String × Nat)) (k : String) (v c : Nat)
    (h : Dict.get l k = some c) :
    (Dict.values (Dict.set l k v)).sum + c = (Dict.values l).sum + v := by
  induction l with
  | nil => simp [dget_nil] at h
  | cons p rest ih =>
      rw [dget_cons] at h
      by_cases hp : p.1 = k
      · simp [hp] at h
        subst h
        rw [dset_cons, if_pos hp, dvalues_cons, dvalues_cons]
        simp
        omega
      · simp [hp] at h
        have hrec := ih h
        rw [dset_cons, if_neg hp, dvalues_cons, dvalues_cons]
        simp only [List.sum_cons]
        omega

theorem dvalues_sum_erase (l : List (String × Nat)) (k : String) (c : Nat)
    (h : Dict.get l k = some c) :
    (Dict.values (Dict.erase l k)).sum + c = (Dict.values l).sum := by
  induction l with
  | nil => simp [dget_nil] at h
  | cons p rest ih =>
      rw [dget_cons] at h
      by_cases hp : p.1 = k
      · simp [hp] at h
        subst h
        rw [derase_cons, if_pos hp, dvalues_cons]
        simp
        omega
      · simp [hp] at h
        have hrec := ih h
        rw [derase_cons, if_neg hp, dvalues_cons, dvalues_cons]
        simp only [List.sum_cons]
        omega

theorem dget_le_sum (l : List (String × Nat)) (k : String) (c : Nat)
    (h : Dict.get l k = some c) : c ≤ (Dict.values l).sum := by
  induction l with
  | nil => simp [dget_nil] at h
  | cons p rest ih =>
      rw [dget_cons] at h
      by_cases hp : p.1 = k
      · simp [hp] at h
        subst h
        rw [dvalues_cons]
        simp only [List.sum_cons]
        omega
      · simp [hp] at h
        have hrec := ih h
        rw [dvalues_cons]
        simp only [List.sum_cons]
        omega

theorem mem_dset (l : List (String × α)) (k : String) (v : α) (p : String × α)
    (hp : p ∈ Dict.entries (Dict.set l k v)) : p = (k, v) ∨ p ∈ l := by
  induction l with
  | nil => simpa [Dict.entries, dset_nil] using hp
  | cons q rest ih =>
      rw [dset_cons] at hp
      by_cases hq : q.1 = k
      · simp [hq, Dict.entries] at hp
        rcases hp with h | h
        · exact Or.inl h
        · exact Or.inr (List.mem_cons_of_mem _ h)
      · simp [hq, Dict.entries] at hp
        rcases hp with h | h
        · exact Or.inr (by simp [h])
        · rcases ih h with h2 | h2
          · exact Or.inl h2
          · exact Or.inr (List.mem_cons_of_mem _ h2)

theorem mem_derase (l : List (String × α)) (k : String) (p : String × α)
    (hp : p ∈ Dict.entries (Dict.erase l k)) : p ∈ l :=
  List.mem_of_mem_eraseP hp

theorem dget_mem (l : List (String × α)) (k : String) (v : α)
    (h : Dict.get l k = some v) : (k, v) ∈ l := by
  induction l with
  | nil => simp [dget_nil] at h
  | cons p rest ih =>
      rw [dget_cons] at h
      by_cases hp : p.1 = k
      · simp [hp] at h
        have : p = (k, v) := by
          cases p
          simp_all
        simp [this]
      · simp [hp] at h
        exact List.mem_cons_of_mem _ (ih h)

theorem dget_eq_none_iff (l : List (String × α)) (k : String) :
    Dict.get l k = none ↔ ∀ p ∈ l, p.1 ≠ k := by
  induction l with
  | nil => simp [dget_nil]
  | cons p rest ih =>
      rw [dget_cons]
      by_cases hp : p.1 = k <;> simp [hp, ih]

theorem disEmpty_iff (d : List (String × α)) :
    Dict.isEmpty d = true ↔ d = [] := by
  cases d <;> simp [Dict.isEmpty]

end DictLemmas

/-! Part: list and counter lemmas -/

theorem list_set_self {α : Type} (l : List α) (i : Nat) (x : α)
    (h : l[i]? = some x) : l.set i x = l := by
  apply List.ext_getElem?
  intro j
  by_cases hij : i = j
  · subst hij
    rw [List.getElem?_set_self (List.getElem?_eq_some_iff.mp h).1]
    exact h.symm
  · rw [List.getElem?_set_ne hij]

theorem incNode_inv (node : NodeState) (m : String) (h : inflightInvariant node) :
    inflightInvariant (incNode node m) := by
  obtain ⟨hsum, hzero⟩ := h
  constructor
  · show node.local_inflight_total + 1 = _
    rw [show (incNode node m).local_inflight_by_model =
        Dict.set node.local_inflight_by_model m
          ((Dict.get node.local_inflight_by_model m).getD 0 + 1) from rfl]
    cases hget : Dict.get node.local_inflight_by_model m with
    | none =>
        simp only [Option.getD_none]
        rw [dvalues_sum_set_none _ _ _ hget]
        omega
    | some c =>
        simp only [Option.getD_some]
        have := dvalues_sum_set_some node.local_inflight_by_model m (c + 1) c hget
        omega
  · intro p hp
    rcases mem_dset _ _ _ _ hp with h1 | h1
    · rw [h1]
      simp
    · exact hzero p h1

theorem decNode_inv (node : NodeState) (m : String) (h : inflightInvariant node)
    (hm : (node.local_inflight_by_model.get m).isSome = true) :
    inflightInvariant (decNode node m) := by
  obtain ⟨hsum, hzero⟩ := h
  obtain ⟨c, hget⟩ := Option.isSome_iff_exists.mp hm
  have hc : c ≠ 0 := hzero (m, c) (dget_mem _ _ _ hget)
  have hcle : c ≤ (Dict.values node.local_inflight_by_model).sum :=
    dget_le_sum _ _ _ hget
  have htotal : 0 < node.local_inflight_total := by omega
  constructor
  · simp only [decNode, hget, Option.getD_some, if_pos htotal]
    by_cases h1 : c ≤ 1
    · rw [if_pos h1]
      have := dvalues_sum_erase node.local_inflight_by_model m c hget
      omega
    · rw [if_neg h1]
      have := dvalues_sum_set_some node.local_inflight_by_model m (c - 1) c hget
      omega
  · intro p hp
    simp only [decNode, hget, Option.getD_some] at hp
    by_cases h1 : c ≤ 1
    · rw [if_pos h1] at hp
      exact hzero p (mem_derase _ _ _ hp)
    · rw [if_neg h1] at hp
      rcases mem_dset _ _ _ _ hp with h2 | h2
      · rw [h2]
        simp
        omega
      · exact hzero p h2

theorem decNode_incNode (node : NodeState) (m : String)
    (h0 : node.local_inflight_by_model.get m ≠ some 0) :
    decNode (incNode node m) m = node := by
  obtain ⟨a1, a2, a3, a4, a5, a6, a7, a8, a9, a10, a11⟩ := node
  simp only [incNode, decNode, dget_set_self, Option.getD_some] at h0 ⊢
  simp only [NodeState.mk.injEq, true_and, and_true]
  constructor
  · rw [if_pos (Nat.succ_pos a8)]
    omega
  · cases hget : Dict.get a9 m with
    | none =>
        simp only [Option.getD_none]
        rw [if_pos (by omega)]
        rw [dset_eq_append _ _ _ hget, derase_append _ _ _ hget]
    | some c =>
        have hc : c ≠ 0 := by
          intro hc0
          rw [hget, hc0] at h0
          exact h0 rfl
        simp only [Option.getD_some]
        rw [if_neg (by omega)]
        rw [dset_dset]
        have hcc : c + 1 - 1 = c := by omega
        rw [hcc]
        exact dset_get_self _ _ _ hget

theorem incrementAt_none (mgr : Manager) (i : Nat) (m : String)
    (hi : mgr.nodes[i]? = none) : incrementAt mgr i m = mgr := by
  simp [incrementAt, modifyNodeAt, hi]

theorem decrementAt_none (mgr : Manager) (i : Nat) (m : String)
    (hi : mgr.nodes[i]? = none) : decrementAt mgr i m = mgr := by
  simp [decrementAt, modifyNodeAt, hi]

theorem incrementAt_some (mgr : Manager) (i : Nat) (m : String) (node : NodeState)
    (hi : mgr.nodes[i]? = some node) :
    incrementAt mgr i m = { mgr with nodes := mgr.nodes.set i (incNode node m) } := by
  simp [incrementAt, modifyNodeAt, hi]

theorem decrementAt_some (mgr : Manager) (i : Nat) (m : String) (node : NodeState)
    (hi : mgr.nodes[i]? = some node) :
    decrementAt mgr i m = { mgr with nodes := mgr.nodes.set i (decNode node m) } := by
  simp [decrementAt, modifyNodeAt, hi]

theorem decrementAt_incrementAt (mgr : Manager) (i : Nat) (m : String)
    (h0 : ∀ node, mgr.nodes[i]? = some node →
      node.local_inflight_by_model.get m ≠ some 0) :
    decrementAt (incrementAt mgr i m) i m = mgr := by
  cases hi : mgr.nodes[i]? with
  | none =>
      rw [incrementAt_none mgr i m hi, decrementAt_none mgr i m hi]
  | some node =>
      have hlt : i < mgr.nodes.length := (List.getElem?_eq_some_iff.mp hi).1
      rw [incrementAt_some mgr i m node hi]
      have h2 : (mgr.nodes.set i (incNode node m))[i]? = some (incNode node m) :=
        List.getElem?_set_self (by simpa using hlt)
      rw [decrementAt_some _ i m _ h2]
      simp only [List.set_set]
      rw [decNode_incNode node m (h0 node hi)]
      have := list_set_self mgr.nodes i node hi
      cases mgr
      simp_all

theorem invariantAll_incrementAt (mgr : Manager) (i : Nat) (m : String)
    (h : ∀ n ∈ mgr.nodes, inflightInvariant n) :
    ∀ n ∈ (incrementAt mgr i m).nodes, inflightInvariant n := by
  intro n hn
  cases hi : mgr.nodes[i]? with
  | none =>
      rw [incrementAt_none mgr i m hi] at hn
      exact h n hn
  | some node =>
      rw [incrementAt_some mgr i m node hi] at hn
      rcases List.mem_or_eq_of_mem_set hn with h1 | h1
      · exact h n h1
      · rw [h1]
        exact incNode_inv node m (h node (List.getElem?_mem hi))

theorem invariantAll_decrementAt (mgr : Manager) (i : Nat) (m : String)
    (h : ∀ n ∈ mgr.nodes, inflightInvariant n)
    (hm : ∀ node, mgr.nodes[i]? = some node →
      (node.local_inflight_by_model.get m).isSome = true) :
    ∀ n ∈ (decrementAt mgr i m).nodes, inflightInvariant n := by
  intro n hn
  cases hi : mgr.nodes[i]? with
  | none =>
      rw [decrementAt_none mgr i m hi] at hn
      exact h n hn
  | some node =>
      rw [decrementAt_some mgr i m node hi] at hn
      rcases List.mem_or_eq_of_mem_set hn with h1 | h1
      · exact h n h1
      · rw [h1]
        exact decNode_inv node m (h node (List.getElem?_mem hi)) (hm node hi)

theorem consumeStream_spec (i : Nat) (m : String) (actions : List ConsumerAction) :
    ∀ (mgr : Manager) (ws : WrappedStream),
      (ws.finished = true → consumeStream i m mgr ws actions = (mgr, ws, 0)) ∧
      (ws.finished = false →
        ((consumeStream i m mgr ws actions).1 = mgr ∧
          (consumeStream i m mgr ws actions).2.2 = 0) ∨
        ((consumeStream i m mgr ws actions).1 = decrementAt mgr i m ∧
          (consumeStream i m mgr ws actions).2.2 = 1)) := by
  induction actions with
  | nil =>
      intro mgr ws
      constructor
      · intro _
        rfl
      · intro _
        exact Or.inl ⟨rfl, rfl⟩
  | cons a rest ih =>
      intro mgr ws
      constructor
      · intro hws
        have hstep : streamStep i m mgr ws a = (mgr, ws, 0) := by
          simp [streamStep, hws]
        simp only [consumeStream, hstep]
        rw [(ih mgr ws).1 hws]
        rfl
      · intro hws
        cases a with
        | next =>
            by_cases hpi : ws.produced < ws.items
            · have hstep : streamStep i m mgr ws ConsumerAction.next =
                  (mgr, { ws with started := true, produced := ws.produced + 1 },
                    0) := by
                simp [streamStep, hws, hpi]
              simp only [consumeStream, hstep]
              rcases (ih mgr
                  { ws with started := true, produced := ws.produced + 1 }).2
                  hws with ⟨hm2, hr⟩ | ⟨hm2, hr⟩
              · exact Or.inl ⟨hm2, by omega⟩
              · exact Or.inr ⟨hm2, by omega⟩
            · have hstep : streamStep i m mgr ws ConsumerAction.next =
                  (decrementAt mgr i m,
                    { ws with started := true, finished := true }, 1) := by
                simp [streamStep, hws, hpi]
              simp only [consumeStream, hstep]
              rw [(ih (decrementAt mgr i m)
                { ws with started := true, finished := true }).1 rfl]
              simp
        | close =>
            by_cases hst : ws.started = true
            · have hstep : streamStep i m mgr ws ConsumerAction.close =
                  (decrementAt mgr i m, { ws with finished := true }, 1) := by
                simp [streamStep, hws, hst]
              simp only [consumeStream, hstep]
              rw [(ih (decrementAt mgr i m) { ws with finished := true }).1 rfl]
              simp
            · have hstep : streamStep i m mgr ws ConsumerAction.close =
                  (mgr, { ws with finished := true }, 0) := by
                simp [streamStep, hws, hst]
              simp only [consumeStream, hstep]
              rw [(ih mgr { ws with finished := true }).1 rfl]
              simp

/-! Part: claims -/

/-- C1.  For every node and model id with a supported cached entry, the
selection score equals the spec's reference formula, and the score is
finite (not `⊤`) exactly when such a supported entry exists. -/
theorem claim_score_formula (node : NodeState) (model_id : String) :
    (∀ model, node.models.get model_id = some model → model.is_supported = true →
      nodeScore node model_id =
        (((((model.active_requests : ℚ) +
              (((node.local_inflight_by_model.get model_id).getD 0 : Nat) : ℚ)) *
            (if model.supports_concurrent_requests = false then 10 else 1)
          + (match model.allocation_status with
             | AllocationStatus.allocated => (0 : ℚ)
             | AllocationStatus.deallocated => 1
             | AllocationStatus.queue => 4)
          + (max node.supported_model_count 1 : Nat) * (1 / 100)
          + (node.local_inflight_total : ℚ) * (1 / 10)
          + (node.remote_active_total : ℚ) * (1 / 100)
          - max node.weight 0 * (1 / 4) : ℚ) : WithTop ℚ))) ∧
    (nodeScore node model_id ≠ ⊤ ↔
      ∃ model, node.models.get model_id = some model ∧ model.is_supported = true) := by
  constructor
  · intro model hget hsup
    rw [nodeScore, hget]
    simp only [hsup, Bool.true_eq_false, if_false, WithTop.coe_inj]
    cases hc : model.supports_concurrent_requests <;>
      cases hs : model.allocation_status <;>
        (simp [statusPenalty, hc, hs] <;> push_cast <;> ring)
  · constructor
    · intro hfin
      cases hget : node.models.get model_id with
      | none => exact absurd (by simp [nodeScore, hget]) hfin
      | some model =>
          refine ⟨model, rfl, ?_⟩
          by_contra hsup
          simp only [Bool.not_eq_true] at hsup
          exact hfin (by simp [nodeScore, hget, hsup])
    · rintro ⟨model, hget, hsup⟩
      simp only [nodeScore, hget, hsup, Bool.true_eq_false, if_false]
      exact WithTop.coe_ne_top

/-- C5.  The in-flight invariant (total equals the sum of the per-model
map, no zero entries) is preserved by the manager's increment, by its
decrement whenever the model has an entry (which every manager-issued
decrement does, having been preceded by a matching increment), and by
every complete dispatch the manager performs. -/
theorem claim_inflight_invariant (node : NodeState) (m : String) :
    (inflightInvariant node → inflightInvariant (incNode node m)) ∧
    (inflightInvariant node → (node.local_inflight_by_model.get m).isSome = true →
      inflightInvariant (decNode node m)) ∧
    (∀ (mgr : Manager) (i : Nat) (stream : Bool) (outcome : InvokeOutcome)
        (actions : List ConsumerAction),
      (∀ n ∈ mgr.nodes, inflightInvariant n) →
      ∀ n ∈ (dispatchRun mgr i m stream outcome actions).1.nodes, inflightInvariant n) := by
  refine ⟨incNode_inv node m, decNode_inv node m, ?_⟩
  intro mgr i stream outcome actions hall
  have hinc := invariantAll_incrementAt mgr i m hall
  have hmem : ∀ node2, (incrementAt mgr i m).nodes[i]? = some node2 →
      (node2.local_inflight_by_model.get m).isSome = true := by
    intro node2 h2
    cases hi : mgr.nodes[i]? with
    | none =>
        rw [incrementAt_none mgr i m hi, hi] at h2
        cases h2
    | some node3 =>
        have hlt : i < mgr.nodes.length := (List.getElem?_eq_some_iff.mp hi).1
        rw [incrementAt_some mgr i m node3 hi] at h2
        rw [List.getElem?_set_self (by simpa using hlt)] at h2
        cases h2
        show (Dict.get (Dict.set _ m _) m).isSome = true
        rw [dget_set_self]
        rfl
  have hdec := invariantAll_decrementAt (incrementAt mgr i m) i m hinc hmem
  cases outcome with
  | mapping => exact hdec
  | raises msg => exact hdec
  | iterator items fails =>
      cases hstream : stream with
      | false =>
          simp only [dispatchRun, hstream, Bool.false_eq_true, if_false]
          exact hdec
      | true =>
          simp only [dispatchRun, hstream, if_true]
          rcases (consumeStream_spec i m actions (incrementAt mgr i m)
              { items := items, failsAtEnd := fails }).2 rfl with
            ⟨hm2, _⟩ | ⟨hm2, _⟩
          · rw [hm2]
            exact hinc
          · rw [hm2]
            exact hdec

/-- C3.  Evaluating the dispatcher at the failing input: a streaming
dispatch whose returned iterator is abandoned (closed) before any item
is pulled performs zero counter releases — CPython never runs the
wrapper generator's `finally` when it is closed before its first
`next()` — leaving the chosen node's `local_inflight_total` and
`local_inflight_by_model` permanently incremented, against the claimed
exactly-once release on consumer abandonment.  By contrast, closing the
same stream after one item has been pulled releases exactly once and
restores the manager. -/
theorem claim_stream_abandonment_leak :
    (dispatchRun mgrSample 0 "qwen-image" true (InvokeOutcome.iterator 2 false)
      [ConsumerAction.close]).2 = 0 ∧
    (dispatchRun mgrSample 0 "qwen-image" true (InvokeOutcome.iterator 2 false)
      [ConsumerAction.close]).1 = incrementAt mgrSample 0 "qwen-image" ∧
    (∃ nd, (incrementAt mgrSample 0 "qwen-image").nodes[0]? = some nd ∧
      nd.local_inflight_total = 1 ∧
      nd.local_inflight_by_model.get "qwen-image" = some 1) ∧
    (dispatchRun mgrSample 0 "qwen-image" true (InvokeOutcome.iterator 2 false)
      [ConsumerAction.next, ConsumerAction.close]).1 = mgrSample ∧
    (dispatchRun mgrSample 0 "qwen-image" true (InvokeOutcome.iterator 2 false)
      [ConsumerAction.next, ConsumerAction.close]).2 = 1 := by
  exact ⟨rfl, rfl, ⟨_, rfl, rfl, rfl⟩, rfl, rfl⟩

theorem refreshNodeList_getElem? (env : Env) (nodes : List NodeState)
    (names : Option (List String)) (i : Nat) (node : NodeState)
    (hi : nodes[i]? = some node) :
    (refreshNodeList env nodes names).1[i]? =
      some (if targeted nodes names i node then applyFetch env node else node) := by
  show (nodes.enum.map _)[i]? = _
  rw [List.getElem?_map, List.getElem?_enum, hi]
  rfl

theorem refreshNodeList_error_mem (env : Env) (nodes : List NodeState)
    (names : Option (List String)) (i : Nat) (node : NodeState)
    (hi : nodes[i]? = some node) (ht : targeted nodes names i node = true)
    (e : String) (he : env.fetch node.base_url = .error e) :
    (node.name, e) ∈ (refreshNodeList env nodes names).2 := by
  show _ ∈ nodes.enum.filterMap _
  apply List.mem_filterMap.mpr
  refine ⟨(i, node), ?_, ?_⟩
  · apply List.getElem?_mem
    rw [List.getElem?_enum, hi]
    rfl
  · simp only [ht, if_true]
    simp [fetchError, he]

/-- C8.  For every refresh call and targeted node: a failed fetch sets
`last_refresh_error` to the error string, contributes `(name, message)`
to the returned error map, and changes nothing else of the node's cached
state; a successful fetch replaces `models` and `categories_by_model_id`
wholesale, recomputes `supported_model_count` and `remote_active_total`,
stamps `last_refresh_ts` and clears `last_refresh_error`. -/
theorem claim_refresh_per_node (env : Env) (nodes : List NodeState)
    (names : Option (List String)) (i : Nat) (node : NodeState)
    (hi : nodes[i]? = some node) (ht : targeted nodes names i node = true) :
    (∀ e, env.fetch node.base_url = .error e →
      (refreshNodeList env nodes names).1[i]? =
        some { node with last_refresh_error := some e } ∧
      (node.name, e) ∈ (refreshNodeList env nodes names).2) ∧
    (∀ resp, env.fetch node.base_url = .ok resp →
      (refreshNodeList env nodes names).1[i]? = some
        { node with
          models := (indexModels resp).1
          categories_by_model_id := (indexModels resp).2
          supported_model_count :=
            (((indexModels resp).1.values).filter (fun mo => mo.is_supported)).length
          remote_active_total :=
            (((indexModels resp).1.values).map (fun mo => mo.active_requests)).sum
          last_refresh_ts := env.now
          last_refresh_error := none }) := by
  constructor
  · intro e he
    constructor
    · rw [refreshNodeList_getElem? env nodes names i node hi]
      simp [ht, applyFetch, he]
    · exact refreshNodeList_error_mem env nodes names i node hi ht e he
  · intro resp hresp
    rw [refreshNodeList_getElem? env nodes names i node hi]
    simp [ht, applyFetch, hresp]

/-- C6.  Construction fails exactly when the config list is empty, the
query bound is non-positive, `strict_init` holds and the initial refresh
reported at least one error, or every node's `models` mapping is empty
after the initial refresh; otherwise it succeeds. -/
theorem claim_construction_failure_iff (env : Env) (configs : List NodeConfig)
    (mode : NodeQueryMode) (maxq : Int) (strict : Bool) :
    (∃ e, initManager env configs mode maxq strict = .error e) ↔
      (configs = [] ∨ maxq ≤ 0 ∨
        (strict = true ∧ (refreshNodeList env (initialNodes configs) none).2 ≠ []) ∨
        (∀ node ∈ (refreshNodeList env (initialNodes configs) none).1,
          node.models.entries = [])) := by
  by_cases hc : configs = []
  · simp [initManager, hc]
  · by_cases hm : maxq ≤ 0
    · simp [initManager, hc, hm]
    · simp only [initManager, if_neg hc, if_neg hm]
      by_cases hs : strict = true ∧
          (refreshNodeList env (initialNodes configs) none).2 ≠ []
      · rw [if_pos (by exact hs)]
        simp [hc, hm, hs]
      · rw [if_neg (by exact hs)]
        by_cases ha : ∀ node ∈ (refreshNodeList env (initialNodes configs) none).1,
            node.models.entries = []
        · rw [if_pos ?hall]
          case hall =>
            apply List.all_eq_true.mpr
            intro node hn
            rw [disEmpty_iff]
            exact ha node hn
          constructor
          · intro _
            exact Or.inr (Or.inr (Or.inr ha))
          · intro _
            exact ⟨ManagerError.noValidModels, rfl⟩
        · rw [if_neg ?hnall]
          case hnall =>
            intro hall
            apply ha
            intro node hn
            have := List.all_eq_true.mp hall node hn
            exact (disEmpty_iff node.models).mp this
          constructor
          · rintro ⟨e, he⟩
            cases he
          · intro hdis
            rcases hdis with h | h | h | h
            · exact absurd h hc
            · exact absurd h hm
            · exact absurd h hs
            · exact absurd h ha

/-- C10.  With duplicated node names, only the last node of each name is
ever fetched by a refresh: an earlier node with a duplicated name is
never targeted and keeps its entire state (models, timestamps, error)
across every refresh, so with an empty `models` map it supports no model
and is never a candidate; counter updates touch no cached inventory. -/
theorem claim_duplicate_name_shadowing (mgr : Manager) (i j : Nat)
    (node_i node_j : NodeState) (hij : i < j)
    (hi : mgr.nodes[i]? = some node_i) (hj : mgr.nodes[j]? = some node_j)
    (hname : node_j.name = node_i.name) :
    (∀ names, targeted mgr.nodes names i node_i = false) ∧
    (∀ env names, (refreshNodeList env mgr.nodes names).1[i]? = some node_i) ∧
    (∀ names k node_k, mgr.nodes[k]? = some node_k →
      targeted mgr.nodes names k node_k = true →
      ∀ k2 node_k2, k < k2 → mgr.nodes[k2]? = some node_k2 →
        node_k2.name ≠ node_k.name) ∧
    (node_i.models.entries = [] →
      ∀ m, isModelSupported node_i m = false ∧ i ∉ candidates mgr m) ∧
    (∀ k m,
      (incrementAt mgr k m).nodes.map
          (fun n => (n.models, n.last_refresh_ts, n.last_refresh_error)) =
        mgr.nodes.map (fun n => (n.models, n.last_refresh_ts, n.last_refresh_error)) ∧
      (decrementAt mgr k m).nodes.map
          (fun n => (n.models, n.last_refresh_ts, n.last_refresh_error)) =
        mgr.nodes.map (fun n => (n.models, n.last_refresh_ts, n.last_refresh_error))) := by
  have hshadow : shadowed mgr.nodes i node_i = true := by
    apply List.any_eq_true.mpr
    refine ⟨node_j, ?_, by simp [hname]⟩
    apply List.getElem?_mem
    rw [List.getElem?_drop]
    rw [show i + 1 + (j - (i + 1)) = j by omega]
    exact hj
  have htgt : ∀ names, targeted mgr.nodes names i node_i = false := by
    intro names
    simp [targeted, hshadow]
  refine ⟨htgt, ?_, ?_, ?_, ?_⟩
  · intro env names
    rw [refreshNodeList_getElem? env mgr.nodes names i node_i hi]
    simp [htgt names]
  · intro names k node_k hk htk k2 node_k2 hkk2 hk2
    have hsh : shadowed mgr.nodes k node_k = false := by
      by_contra hx
      rw [Bool.not_eq_false] at hx
      rw [targeted.eq_def, hx] at htk
      simp at htk
    have hall := List.any_eq_false.mp hsh
    intro hne
    apply hall node_k2
    · apply List.getElem?_mem
      rw [List.getElem?_drop]
      rw [show k + 1 + (k2 - (k + 1)) = k2 by omega]
      exact hk2
    · simp [hne]
  · intro hempty m
    have hms : node_i.models = ([] : List (String × AlloyModel)) := hempty
    have hsup : isModelSupported node_i m = false := by
      simp [isModelSupported, hms]
      rfl
    refine ⟨hsup, ?_⟩
    intro hmem
    rw [candidates] at hmem
    have := List.of_mem_filter hmem
    rw [hi] at this
    simp [hsup] at this
  · intro k m
    constructor
    · cases hk : mgr.nodes[k]? with
      | none => rw [incrementAt_none mgr k m hk]
      | some nd =>
          rw [incrementAt_some mgr k m nd hk]
          show (mgr.nodes.set k (incNode nd m)).map _ = _
          rw [List.map_set]
          apply list_set_self
          rw [List.getElem?_map, hk]
          rfl
    · cases hk : mgr.nodes[k]? with
      | none => rw [decrementAt_none mgr k m hk]
      | some nd =>
          rw [decrementAt_some mgr k m nd hk]
          show (mgr.nodes.set k (decNode nd m)).map _ = _
          rw [List.map_set]
          apply list_set_self
          rw [List.getElem?_map, hk]
          rfl

theorem pickMinBy_split {α : Type} (f : α → WithTop ℚ) (x : α) (xs : List α) :
    ∃ l1 l2, x :: xs = l1 ++ pickMinBy f x xs :: l2 ∧
      (∀ y ∈ x :: xs, f (pickMinBy f x xs) ≤ f y) ∧
      (∀ y ∈ l1, f (pickMinBy f x xs) < f y) := by
  induction xs generalizing x with
  | nil =>
      refine ⟨[], [], rfl, ?_, by simp⟩
      intro y hy
      rcases List.mem_singleton.mp hy with rfl
      exact le_refl _
  | cons y ys ih =>
      have hstep : pickMinBy f x (y :: ys) = pickMinBy f (if f y < f x then y else x) ys := rfl
      by_cases hyx : f y < f x
      · rw [hstep, if_pos hyx]
        obtain ⟨l1, l2, hsplit, hmin, hbefore⟩ := ih y
        refine ⟨x :: l1, l2, ?_, ?_, ?_⟩
        · rw [List.cons_append, ← hsplit]
        · intro z hz
          rcases List.mem_cons.mp hz with rfl | hz2
          · exact le_of_lt (lt_of_le_of_lt (hmin y (List.mem_cons_self y ys)) hyx)
          · exact hmin z hz2
        · intro z hz
          rcases List.mem_cons.mp hz with rfl | hz2
          · exact lt_of_le_of_lt (hmin y (List.mem_cons_self y ys)) hyx
          · exact hbefore z hz2
      · rw [hstep, if_neg hyx]
        obtain ⟨l1, l2, hsplit, hmin, hbefore⟩ := ih x
        cases l1 with
        | nil =>
            simp only [List.nil_append] at hsplit
            have hpx : x = pickMinBy f x ys := (List.cons.injEq _ _ _ _).mp hsplit |>.1
            have hl2 : ys = l2 := (List.cons.injEq _ _ _ _).mp hsplit |>.2
            refine ⟨[], y :: ys, by rw [← hpx]; simp, ?_, by simp⟩
            intro z hz
            rcases List.mem_cons.mp hz with rfl | hz2
            · rw [← hpx]
            · rcases List.mem_cons.mp hz2 with rfl | hz3
              · rw [← hpx]
                exact not_lt.mp hyx
              · exact hmin z (List.mem_cons_of_mem _ hz3)
        | cons w l1' =>
            have hw : x = w := by
              have := (List.cons.injEq _ _ _ _).mp (by simpa using hsplit)
              exact this.1
            have hys : ys = l1' ++ pickMinBy f x ys :: l2 := by
              have := (List.cons.injEq _ _ _ _).mp (by simpa using hsplit)
              exact this.2
            have hxl1 : x ∈ w :: l1' := by
              rw [← hw]
              exact List.mem_cons_self _ _
            refine ⟨x :: y :: l1', l2, ?_, ?_, ?_⟩
            · rw [List.cons_append, List.cons_append, ← hys]
            · intro z hz
              rcases List.mem_cons.mp hz with rfl | hz2
              · exact hmin z (List.mem_cons_self _ _)
              · rcases List.mem_cons.mp hz2 with rfl | hz3
                · exact le_of_lt (lt_of_lt_of_le (hbefore x hxl1) (not_lt.mp hyx))
                · exact hmin z (List.mem_cons_of_mem _ hz3)
            · intro z hz
              rcases List.mem_cons.mp hz with rfl | hz2
              · exact hbefore z hxl1
              · rcases List.mem_cons.mp hz2 with rfl | hz3
                · exact lt_of_lt_of_le (hbefore x hxl1) (not_lt.mp hyx)
                · exact hbefore z (List.mem_cons_of_mem _ hz3)

theorem candidates_pairwise (mgr : Manager) (m : String) :
    (candidates mgr m).Pairwise (· < ·) :=
  (List.pairwise_lt_range _).filter _

theorem selectPhase2_ok (env : Env) (mgr : Manager) (m : String)
    (cands : List Nat) (mgr2 : Manager) (i : Nat)
    (h : selectPhase2 env mgr m cands = (mgr2, Except.ok i)) :
    i ∈ candidates mgr2 m ∧
    ∀ j ∈ candidates mgr2 m,
      scoreAt mgr2 m i < scoreAt mgr2 m j ∨
        (scoreAt mgr2 m i = scoreAt mgr2 m j ∧ i ≤ j) := by
  rw [selectPhase2] at h
  revert h
  generalize (match mgr.mode with
    | NodeQueryMode.local_only => mgr
    | NodeQueryMode.query_everytime =>
        (refreshNodes env mgr (some (cands.map (nameAt mgr)))).1
    | NodeQueryMode.controlled_querying =>
        let ranked := cands.mergeSort
          (fun i j => !(scoreAt mgr m j < scoreAt mgr m i))
        let to_query := ranked.take (min mgr.max_nodes_to_query ranked.length)
        (refreshNodes env mgr (some (to_query.map (nameAt mgr)))).1) = mgr3
  intro h
  cases hc : candidates mgr3 m with
  | nil =>
      rw [hc] at h
      cases h
  | cons c cs =>
      rw [hc] at h
      have hmgr : mgr3 = mgr2 := congrArg Prod.fst h
      have hi : pickMinBy (scoreAt mgr3 m) c cs = i := by
        have := congrArg Prod.snd h
        simpa using this
      subst hmgr
      obtain ⟨l1, l2, hsplit, hmin, hbefore⟩ := pickMinBy_split (scoreAt mgr3 m) c cs
      rw [hi] at hsplit hmin hbefore
      have hpw : (candidates mgr3 m).Pairwise (· < ·) := candidates_pairwise mgr3 m
      rw [hc, hsplit] at hpw
      have hpw2 := List.pairwise_append.mp hpw
      constructor
      · rw [hc, hsplit]
        exact List.mem_append_right _ (List.mem_cons_self _ _)
      · intro j hj
        rw [hc, hsplit] at hj
        rcases List.mem_append.mp hj with hj1 | hj2
        · exact Or.inl (hbefore j hj1)
        · rcases List.mem_cons.mp hj2 with rfl | hj3
          · exact Or.inr ⟨rfl, le_refl _⟩
          · have hij : i < j := (List.pairwise_cons.mp hpw2.2.1).1 j hj3
            have hle : scoreAt mgr3 m i ≤ scoreAt mgr3 m j := by
              apply hmin
              rw [hsplit]
              exact List.mem_append_right _ (List.mem_cons_of_mem _ hj3)
            rcases lt_or_eq_of_le hle with hlt | heq
            · exact Or.inl hlt
            · exact Or.inr ⟨heq, le_of_lt hij⟩

/-- C2.  Selection with an empty initial candidate set refreshes all
nodes and recollects, failing with the no-candidate error if the set is
still empty and otherwise continuing with the refreshed state; a
non-empty candidate set goes straight to the mode-dependent phase; and
every successful selection returns a candidate of minimal score in the
post-refresh state, ties broken by the smallest node index (first node
in the list wins). -/
theorem claim_select_node (env : Env) (mgr : Manager) (m : String) :
    (candidates mgr m = [] →
      (candidates (refreshNodes env mgr).1 m = [] →
        selectNodeForModel env mgr m =
          ((refreshNodes env mgr).1, Except.error (ManagerError.noCandidateNode m))) ∧
      (∀ c cs, candidates (refreshNodes env mgr).1 m = c :: cs →
        selectNodeForModel env mgr m =
          selectPhase2 env (refreshNodes env mgr).1 m (c :: cs))) ∧
    (∀ c cs, candidates mgr m = c :: cs →
      selectNodeForModel env mgr m = selectPhase2 env mgr m (c :: cs)) ∧
    (∀ mgr2 i, selectNodeForModel env mgr m = (mgr2, Except.ok i) →
      i ∈ candidates mgr2 m ∧
      ∀ j ∈ candidates mgr2 m,
        scoreAt mgr2 m i < scoreAt mgr2 m j ∨
          (scoreAt mgr2 m i = scoreAt mgr2 m j ∧ i ≤ j)) := by
  refine ⟨?_, ?_, ?_⟩
  · intro hc
    constructor
    · intro hc2
      rw [selectNodeForModel.eq_def, hc]
      simp only [hc2]
    · intro c cs hc2
      rw [selectNodeForModel.eq_def, hc]
      simp only [hc2]
  · intro c cs hc
    rw [selectNodeForModel.eq_def, hc]
  · intro mgr2 i h
    rw [selectNodeForModel.eq_def] at h
    revert h
    cases hc : candidates mgr m with
    | nil =>
        simp only []
        cases hc2 : candidates (refreshNodes env mgr).1 m with
        | nil =>
            simp only [hc2]
            intro h
            cases congrArg Prod.snd h
        | cons c cs =>
            simp only [hc2]
            intro h
            exact selectPhase2_ok env (refreshNodes env mgr).1 m (c :: cs) mgr2 i h
    | cons c cs =>
        intro h
        exact selectPhase2_ok env mgr m (c :: cs) mgr2 i h

theorem mergeEntry_fst_get_ne (node : NodeState)
    (acc : Dict AlloyModel × Dict ModalitySet) (p : String × AlloyModel)
    (m : String) (hne : p.1 ≠ m) :
    ((mergeEntry node acc p).1).get m = (acc.1).get m := by
  rw [mergeEntry]
  cases hacc : (acc.1).get p.1 <;> simp only [hacc] <;> exact dget_set_ne _ _ _ _ hne

theorem innerFold_get_no_key (node : NodeState)
    (l : List (String × AlloyModel)) (m : String)
    (hno : ∀ p ∈ l, p.1 ≠ m) :
    ∀ acc : Dict AlloyModel × Dict ModalitySet,
      ((l.foldl (mergeEntry node) acc).1).get m = (acc.1).get m := by
  induction l with
  | nil => intro acc; rfl
  | cons p rest ih =>
      intro acc
      rw [List.foldl_cons]
      rw [ih (fun q hq => hno q (List.mem_cons_of_mem _ hq))]
      exact mergeEntry_fst_get_ne node acc p m (hno p (List.mem_cons_self _ _))

theorem mergeFold_nil (o : Option AlloyModel) : mergeFold o [] = o := by
  cases o <;> rfl

theorem innerFold_get (node : NodeState) (l : List (String × AlloyModel))
    (m : String) (hnodup : (l.map Prod.fst).Nodup) :
    ∀ acc : Dict AlloyModel × Dict ModalitySet,
      ((l.foldl (mergeEntry node) acc).1).get m =
        mergeFold ((acc.1).get m) ((Dict.get l m).toList) := by
  induction l with
  | nil =>
      intro acc
      exact (mergeFold_nil _).symm
  | cons p rest ih =>
      intro acc
      have hnodup' := hnodup
      rw [List.map_cons, List.nodup_cons] at hnodup'
      rw [List.foldl_cons, dget_cons]
      by_cases hp : p.1 = m
      · rw [if_pos hp]
        have hno : ∀ q ∈ rest, q.1 ≠ m := by
          intro q hq hqm
          apply hnodup'.1
          have hmem : q.1 ∈ List.map Prod.fst rest := List.mem_map_of_mem Prod.fst hq
          rwa [hqm, ← hp] at hmem
        rw [innerFold_get_no_key node rest m hno]
        rw [mergeEntry]
        subst hp
        cases hacc : (acc.1).get p.1 with
        | none =>
            simp only [hacc]
            rw [dget_set_self]
            rfl
        | some e =>
            simp only [hacc]
            rw [dget_set_self]
            rfl
      · rw [if_neg hp]
        rw [ih hnodup'.2]
        rw [mergeEntry_fst_get_ne node acc p m hp]

theorem mergeFold_append (o : Option AlloyModel) (l1 l2 : List AlloyModel) :
    mergeFold o (l1 ++ l2) = mergeFold (mergeFold o l1) l2 := by
  induction l1 generalizing o with
  | nil => rw [List.nil_append, mergeFold_nil]
  | cons x xs ih => cases o <;> simp only [List.cons_append, mergeFold] <;> exact ih _

theorem nodeModelsFor_cons (node : NodeState) (rest : List NodeState) (m : String) :
    nodeModelsFor (node :: rest) m =
      (node.models.get m).toList ++ nodeModelsFor rest m := by
  rw [nodeModelsFor, List.filterMap_cons]
  cases h : node.models.get m <;> simp [nodeModelsFor, h]

theorem modelSummary_get (nodes : List NodeState) (m : String)
    (hkeys : ∀ n ∈ nodes, (n.models.keys).Nodup) :
    ((modelSummary nodes).1).get m = mergeFold none (nodeModelsFor nodes m) := by
  suffices h : ∀ acc : Dict AlloyModel × Dict ModalitySet,
      ((nodes.foldl mergeStep acc).1).get m =
        mergeFold ((acc.1).get m) (nodeModelsFor nodes m) by
    exact h (([] : Dict AlloyModel), ([] : Dict ModalitySet))
  induction nodes with
  | nil =>
      intro acc
      exact (mergeFold_nil _).symm
  | cons node rest ih =>
      intro acc
      rw [List.foldl_cons, nodeModelsFor_cons, mergeFold_append]
      rw [ih (fun n hn => hkeys n (List.mem_cons_of_mem _ hn)) (mergeStep acc node)]
      congr 1
      rw [mergeStep]
      exact innerFold_get node node.models.entries m
        (hkeys node (List.mem_cons_self _ _)) acc

theorem mergeFold_some (e : AlloyModel) (xs : List AlloyModel) :
    mergeFold (some e) xs = some (xs.foldl mergeModel e) := by
  induction xs generalizing e with
  | nil => rfl
  | cons x xs ih => rw [mergeFold, List.foldl_cons]; exact ih _

theorem foldl_merge_active (v : AlloyModel) (vs : List AlloyModel) :
    (vs.foldl mergeModel v).active_requests =
      v.active_requests + (vs.map (fun x => x.active_requests)).sum := by
  induction vs generalizing v with
  | nil => simp
  | cons x xs ih =>
      rw [List.foldl_cons, ih]
      simp [mergeModel]
      ring

theorem foldl_merge_supported (v : AlloyModel) (vs : List AlloyModel) :
    (vs.foldl mergeModel v).is_supported =
      (v.is_supported || vs.any (fun x => x.is_supported)) := by
  induction vs generalizing v with
  | nil => simp
  | cons x xs ih =>
      rw [List.foldl_cons, ih]
      simp [mergeModel, Bool.or_assoc]

theorem foldl_merge_concurrent (v : AlloyModel) (vs : List AlloyModel) :
    (vs.foldl mergeModel v).supports_concurrent_requests =
      (v.supports_concurrent_requests ||
        vs.any (fun x => x.supports_concurrent_requests)) := by
  induction vs generalizing v with
  | nil => simp
  | cons x xs ih =>
      rw [List.foldl_cons, ih]
      simp [mergeModel, Bool.or_assoc]

theorem promoteStatus_eq_statusMax (a b : AllocationStatus) :
    promoteStatus a b = statusMax a b := by
  cases a <;> cases b <;> rfl

theorem statusMax_deallocated (b : AllocationStatus) :
    statusMax AllocationStatus.deallocated b = b := by
  cases b <;> rfl

theorem foldl_merge_status (v : AlloyModel) (vs : List AlloyModel) :
    (vs.foldl mergeModel v).allocation_status =
      (vs.map (fun x => x.allocation_status)).foldl statusMax v.allocation_status := by
  induction vs generalizing v with
  | nil => rfl
  | cons x xs ih =>
      rw [List.foldl_cons, ih]
      simp only [List.map_cons, List.foldl_cons]
      congr 1
      exact promoteStatus_eq_statusMax _ _

theorem foldl_merge_caps_nonempty (v : AlloyModel) (vs : List AlloyModel)
    (h : v.capabilities ≠ []) :
    (vs.foldl mergeModel v).capabilities = v.capabilities := by
  induction vs generalizing v with
  | nil => rfl
  | cons x xs ih =>
      rw [List.foldl_cons]
      have hm : (mergeModel v x).capabilities = v.capabilities := by
        simp [mergeModel, h]
      rw [ih (mergeModel v x) (by rw [hm]; exact h), hm]

theorem foldl_merge_caps_empty (v : AlloyModel) (vs : List AlloyModel)
    (h : v.capabilities = []) :
    (vs.foldl mergeModel v).capabilities =
      ((vs.map (fun x => x.capabilities)).find?
        (fun c => !c.isEmpty)).getD [] := by
  induction vs generalizing v with
  | nil => simpa using h
  | cons x xs ih =>
      rw [List.foldl_cons, List.map_cons, List.find?_cons]
      by_cases hx : x.capabilities = []
      · have hm : (mergeModel v x).capabilities = [] := by
          simp [mergeModel, h, hx]
        rw [ih (mergeModel v x) hm]
        simp [hx]
      · have hm : (mergeModel v x).capabilities = x.capabilities := by
          simp [mergeModel, h, hx]
        rw [foldl_merge_caps_nonempty (mergeModel v x) xs (by rw [hm]; exact hx), hm]
        have : (!x.capabilities.isEmpty) = true := by
          simp [List.isEmpty_iff, hx]
        rw [this]
        rfl

/-- C4.  For a model id cached on at least one node, the aggregated
summary entry adds `active_requests` across nodes, ORs `is_supported`
and `supports_concurrent_requests`, takes the maximum
`allocation_status` under `ALLOCATED > QUEUE > DEALLOCATED`, and copies
`capabilities` from the first node with a non-empty capability list. -/
theorem claim_aggregation_entry (nodes : List NodeState) (m : String)
    (v : AlloyModel) (vs : List AlloyModel)
    (hkeys : ∀ n ∈ nodes, (n.models.keys).Nodup)
    (hpresent : nodeModelsFor nodes m = v :: vs) :
    ∃ entry, ((modelSummary nodes).1).get m = some entry ∧
      entry.active_requests = ((v :: vs).map (fun x => x.active_requests)).sum ∧
      entry.is_supported = ((v :: vs).any (fun x => x.is_supported)) ∧
      entry.supports_concurrent_requests =
        ((v :: vs).any (fun x => x.supports_concurrent_requests)) ∧
      entry.allocation_status =
        ((v :: vs).map (fun x => x.allocation_status)).foldl statusMax
          AllocationStatus.deallocated ∧
      (∀ caps, ((v :: vs).map (fun x => x.capabilities)).find?
          (fun c => !c.isEmpty) = some caps →
        entry.capabilities = caps) := by
  have hget : ((modelSummary nodes).1).get m = some (vs.foldl mergeModel v) := by
    rw [modelSummary_get nodes m hkeys, hpresent, mergeFold, mergeFold_some]
  refine ⟨vs.foldl mergeModel v, hget, ?_, ?_, ?_, ?_, ?_⟩
  · rw [foldl_merge_active]
    simp
  · rw [foldl_merge_supported]
    simp
  · rw [foldl_merge_concurrent]
    simp
  · rw [foldl_merge_status]
    simp only [List.map_cons, List.foldl_cons, statusMax_deallocated]
  · intro caps hfind
    rw [List.map_cons] at hfind
    by_cases hv : v.capabilities = []
    · rw [List.find?_cons_of_neg _ (by simp [hv])] at hfind
      rw [foldl_merge_caps_empty v vs hv, hfind]
      rfl
    · rw [List.find?_cons_of_pos _ (by simp [List.isEmpty_iff, hv])] at hfind
      rw [foldl_merge_caps_nonempty v vs hv]
      cases hfind
      rfl

theorem dget_set {α : Type} (l : List (String × α)) (k : String) (v : α)
    (id : String) :
    Dict.get (Dict.set l k v) id = if k = id then some v else Dict.get l id := by
  by_cases h : k = id
  · subst h
    rw [if_pos rfl]
    exact dget_set_self l k v
  · rw [if_neg h]
    exact dget_set_ne l k id v h

theorem dget_append_of_none {α : Type} (l1 l2 : List (String × α)) (k : String)
    (h : Dict.get l1 k = none) : Dict.get (l1 ++ l2) k = Dict.get l2 k := by
  induction l1 with
  | nil => rfl
  | cons p rest ih =>
      rw [dget_cons] at h
      by_cases hp : p.1 = k
      · simp [hp] at h
      · simp [hp] at h
        rw [List.cons_append, dget_cons, if_neg hp]
        exact ih h

theorem dkeys_set_none {α : Type} (l : List (String × α)) (k : String) (v : α)
    (h : Dict.get l k = none) :
    Dict.keys (Dict.set l k v) = Dict.keys l ++ [k] := by
  rw [dset_eq_append l k v h]
  simp [Dict.keys]

theorem dkeys_set_some {α : Type} (l : List (String × α)) (k : String) (v c : α)
    (h : Dict.get l k = some c) : Dict.keys (Dict.set l k v) = Dict.keys l := by
  induction l with
  | nil => simp [dget_nil] at h
  | cons p rest ih =>
      rw [dget_cons] at h
      by_cases hp : p.1 = k
      · simp [hp] at h
        simp [dset_cons, hp, Dict.keys]
      · simp [hp] at h
        simp [dset_cons, hp, Dict.keys] at ih ⊢
        exact ih h

theorem dmem_of_nodup_get {α : Type} (l : List (String × α))
    (hnodup : (Dict.keys l).Nodup) (p : String × α) (hp : p ∈ l) :
    Dict.get l p.1 = some p.2 := by
  induction l with
  | nil => cases hp
  | cons q rest ih =>
      rw [show Dict.keys (q :: rest) = q.1 :: Dict.keys rest from rfl,
        List.nodup_cons] at hnodup
      rw [dget_cons]
      rcases List.mem_cons.mp hp with rfl | hp2
      · rw [if_pos rfl]
      · have hne : q.1 ≠ p.1 := by
          intro he
          apply hnodup.1
          rw [he]
          exact List.mem_map_of_mem Prod.fst hp2
        rw [if_neg hne]
        exact ih hnodup.2 hp2

theorem ms_contains_add (s : ModalitySet) (b b2 : Modality) :
    (s.add b).contains b2 = if b2 = b then true else s.contains b2 := by
  cases b <;> cases b2 <;> simp [ModalitySet.add, ModalitySet.contains]

theorem ms_union_empty (t : ModalitySet) :
    ModalitySet.union ModalitySet.empty t = t := by
  obtain ⟨t1, t2, t3, t4⟩ := t
  simp [ModalitySet.union, ModalitySet.empty]

theorem ms_not_empty_of_contains (s : ModalitySet) (b : Modality)
    (h : s.contains b = true) : s.isEmpty = false := by
  obtain ⟨s1, s2, s3, s4⟩ := s
  cases b <;> simp [ModalitySet.contains] at h <;>
    simp [ModalitySet.isEmpty, h]

theorem indexOne_snd (b : Modality) (acc : Dict AlloyModel × Dict ModalitySet)
    (x : AlloyModel) :
    (indexOne b acc x).2 = (acc.2).set x.model_id
      (((acc.2.get x.model_id).getD ModalitySet.empty).add b) := by
  rw [indexOne]

theorem indexOne_fst (b : Modality) (acc : Dict AlloyModel × Dict ModalitySet)
    (x : AlloyModel) (whole : List AlloyModel)
    (hcons : ∀ y ∈ whole, ∀ z ∈ whole, y.model_id = z.model_id → y = z)
    (hx : x ∈ whole)
    (hinv : ∀ id y, (acc.1).get id = some y → y.model_id = id ∧ y ∈ whole) :
    (indexOne b acc x).1 =
      match (acc.1).get x.model_id with
      | none => (acc.1).set x.model_id x
      | some _ => acc.1 := by
  cases hg : (acc.1).get x.model_id with
  | none =>
      rw [indexOne]
      simp only [hg, dget_set_self]
      rw [if_neg (by
        rintro ⟨h1, h2⟩
        exact h2 h1)]
  | some e =>
      obtain ⟨hid, hw⟩ := hinv x.model_id e hg
      have hex : e = x := hcons e hw x hx hid
      rw [indexOne]
      simp only [hg]
      rw [if_neg (by
        rw [hex]
        rintro ⟨h1, h2⟩
        exact h2 h1)]

theorem indexList_process (whole : List AlloyModel)
    (hcons : ∀ y ∈ whole, ∀ z ∈ whole, y.model_id = z.model_id → y = z)
    (b : Modality) (l : List AlloyModel) :
    ∀ acc : Dict AlloyModel × Dict ModalitySet,
      (∀ x ∈ l, x ∈ whole) → indexAccInv whole acc →
      (indexAccInv whole (indexListFrom b acc l) ∧
       (∀ id, (((indexListFrom b acc l).1).get id).isSome = true ↔
         ((((acc.1).get id).isSome = true) ∨ ∃ x ∈ l, x.model_id = id)) ∧
       (∀ id b2, containsOf (indexListFrom b acc l).2 id b2 = true ↔
         (containsOf acc.2 id b2 = true ∨ (b2 = b ∧ ∃ x ∈ l, x.model_id = id)))) := by
  induction l with
  | nil =>
      intro acc hsub hinv
      exact ⟨hinv, by simp [indexListFrom], by simp [indexListFrom]⟩
  | cons x xs ih =>
      intro acc hsub hinv
      have hx : x ∈ whole := hsub x (List.mem_cons_self _ _)
      have hfst := indexOne_fst b acc x whole hcons hx hinv.1
      have hsnd := indexOne_snd b acc x
      have hstep : indexListFrom b acc (x :: xs) =
          indexListFrom b (indexOne b acc x) xs := rfl
      have hinv' : indexAccInv whole (indexOne b acc x) := by
        constructor
        · intro id y hy
          rw [hfst] at hy
          cases hg : (acc.1).get x.model_id with
          | none =>
              rw [hg] at hy
              rw [dget_set] at hy
              by_cases hid : x.model_id = id
              · rw [if_pos hid] at hy
                cases hy
                exact ⟨hid, hx⟩
              · rw [if_neg hid] at hy
                exact hinv.1 id y hy
          | some e =>
              rw [hg] at hy
              exact hinv.1 id y hy
        · rw [hfst]
          cases hg : (acc.1).get x.model_id with
          | none =>
              rw [dkeys_set_none _ _ _ hg]
              rw [List.nodup_append]
              refine ⟨hinv.2, List.nodup_singleton _, ?_⟩
              intro a ha hb
              rcases List.mem_singleton.mp hb with rfl
              obtain ⟨p, hp, hpa⟩ := List.mem_map.mp ha
              exact (dget_eq_none_iff _ _).mp hg p hp hpa
          | some e =>
              exact hinv.2
      have hgets : ∀ id, (((indexOne b acc x).1).get id).isSome = true ↔
          ((((acc.1).get id).isSome = true) ∨ id = x.model_id) := by
        intro id
        rw [hfst]
        cases hg : (acc.1).get x.model_id with
        | none =>
            rw [dget_set]
            by_cases hid : x.model_id = id
            · subst hid
              simp [hg]
            · simp [hid, Ne.symm hid]
        | some e =>
            by_cases hid : id = x.model_id
            · subst hid
              simp [hg]
            · simp [hid]
      have hcats : ∀ id b2, containsOf (indexOne b acc x).2 id b2 = true ↔
          (containsOf acc.2 id b2 = true ∨ (b2 = b ∧ id = x.model_id)) := by
        intro id b2
        unfold containsOf
        rw [hsnd, dget_set]
        by_cases hid : x.model_id = id
        · rw [if_pos hid]
          subst hid
          rw [Option.getD_some, ms_contains_add]
          by_cases hb2 : b2 = b
          · simp [hb2]
          · simp [hb2]
        · rw [if_neg hid]
          constructor
          · exact fun h => Or.inl h
          · rintro (h | ⟨hb2, hid2⟩)
            · exact h
            · exact absurd hid2.symm hid
      obtain ⟨jinv, jget, jcat⟩ := ih (indexOne b acc x)
        (fun y hy => hsub y (List.mem_cons_of_mem _ hy)) hinv'
      rw [hstep]
      refine ⟨jinv, ?_, ?_⟩
      · intro id
        rw [jget id, hgets id]
        constructor
        · rintro ((h | h) | ⟨y, hy, hyid⟩)
          · exact Or.inl h
          · exact Or.inr ⟨x, List.mem_cons_self _ _, h.symm⟩
          · exact Or.inr ⟨y, List.mem_cons_of_mem _ hy, hyid⟩
        · rintro (h | ⟨y, hy, hyid⟩)
          · exact Or.inl (Or.inl h)
          · rcases List.mem_cons.mp hy with rfl | hy2
            · exact Or.inl (Or.inr hyid.symm)
            · exact Or.inr ⟨y, hy2, hyid⟩
      · intro id b2
        rw [jcat id b2, hcats id b2]
        constructor
        · rintro ((h | ⟨hb2, hid⟩) | ⟨hb2, y, hy, hyid⟩)
          · exact Or.inl h
          · exact Or.inr ⟨hb2, x, List.mem_cons_self _ _, hid.symm⟩
          · exact Or.inr ⟨hb2, y, List.mem_cons_of_mem _ hy, hyid⟩
        · rintro (h | ⟨hb2, y, hy, hyid⟩)
          · exact Or.inl (Or.inl h)
          · rcases List.mem_cons.mp hy with rfl | hy2
            · exact Or.inl (Or.inr ⟨hb2, hyid.symm⟩)
            · exact Or.inr ⟨hb2, y, hy2, hyid⟩

theorem allWalk_cons (p : Modality × List AlloyModel)
    (rest : List (Modality × List AlloyModel)) :
    allWalk (p :: rest) = p.2 ++ allWalk rest := by
  simp [allWalk]

theorem indexWalk_process (whole : List AlloyModel)
    (hcons : ∀ y ∈ whole, ∀ z ∈ whole, y.model_id = z.model_id → y = z)
    (walk : List (Modality × List AlloyModel)) :
    ∀ acc : Dict AlloyModel × Dict ModalitySet,
      (∀ p ∈ walk, ∀ x ∈ p.2, x ∈ whole) → indexAccInv whole acc →
      (indexAccInv whole (indexWalkFrom acc walk) ∧
       (∀ id, (((indexWalkFrom acc walk).1).get id).isSome = true ↔
         ((((acc.1).get id).isSome = true) ∨ occursIn walk id)) ∧
       (∀ id b2, containsOf (indexWalkFrom acc walk).2 id b2 = true ↔
         (containsOf acc.2 id b2 = true ∨ occursAt walk b2 id))) := by
  induction walk with
  | nil =>
      intro acc hsub hinv
      refine ⟨hinv, ?_, ?_⟩
      · intro id
        simp [indexWalkFrom, occursIn, allWalk]
      · intro id b2
        simp [indexWalkFrom, occursAt]
  | cons p rest ih =>
      intro acc hsub hinv
      have hstep : indexWalkFrom acc (p :: rest) =
          indexWalkFrom (indexListFrom p.1 acc p.2) rest := rfl
      obtain ⟨kinv, kget, kcat⟩ := indexList_process whole hcons p.1 p.2 acc
        (fun x hx => hsub p (List.mem_cons_self _ _) x hx) hinv
      obtain ⟨jinv, jget, jcat⟩ := ih (indexListFrom p.1 acc p.2)
        (fun q hq x hx => hsub q (List.mem_cons_of_mem _ hq) x hx) kinv
      rw [hstep]
      refine ⟨jinv, ?_, ?_⟩
      · intro id
        rw [jget id, kget id]
        simp only [occursIn, allWalk_cons, List.mem_append]
        constructor
        · rintro ((h | ⟨y, hy, hyid⟩) | ⟨y, hy, hyid⟩)
          · exact Or.inl h
          · exact Or.inr ⟨y, Or.inl hy, hyid⟩
          · exact Or.inr ⟨y, Or.inr hy, hyid⟩
        · rintro (h | ⟨y, hy | hy, hyid⟩)
          · exact Or.inl (Or.inl h)
          · exact Or.inl (Or.inr ⟨y, hy, hyid⟩)
          · exact Or.inr ⟨y, hy, hyid⟩
      · intro id b2
        rw [jcat id b2, kcat id b2]
        simp only [occursAt, List.mem_cons]
        constructor
        · rintro ((h | ⟨hb2, y, hy, hyid⟩) | ⟨q, hq, hqb, y, hy, hyid⟩)
          · exact Or.inl h
          · exact Or.inr ⟨p, Or.inl rfl, hb2.symm, y, hy, hyid⟩
          · exact Or.inr ⟨q, Or.inr hq, hqb, y, hy, hyid⟩
        · rintro (h | ⟨q, rfl | hq, hqb, y, hy, hyid⟩)
          · exact Or.inl (Or.inl h)
          · exact Or.inl (Or.inr ⟨hqb.symm, y, hy, hyid⟩)
          · exact Or.inr ⟨q, hq, hqb, y, hy, hyid⟩

theorem allWalk_responseWalk (r : AlloyModelsResponse) :
    allWalk (responseWalk r) = allEntries r := by
  simp [allWalk, responseWalk, allEntries]

theorem indexModels_eq_indexWalkFrom (r : AlloyModelsResponse) :
    indexModels r =
      indexWalkFrom (([] : Dict AlloyModel), ([] : Dict ModalitySet))
        (responseWalk r) := rfl

theorem indexModels_spec (r : AlloyModelsResponse)
    (hcons : responseConsistent r) :
    (∀ id x, ((indexModels r).1).get id = some x →
      x.model_id = id ∧ x ∈ allEntries r) ∧
    (((indexModels r).1).keys).Nodup ∧
    (∀ id, (((indexModels r).1).get id).isSome = true ↔
      occursIn (responseWalk r) id) ∧
    (∀ id b, containsOf (indexModels r).2 id b = true ↔
      occursAt (responseWalk r) b id) := by
  have hcons2 : ∀ y ∈ allEntries r, ∀ z ∈ allEntries r,
      y.model_id = z.model_id → y = z := hcons
  have hsub : ∀ p ∈ responseWalk r, ∀ x ∈ p.2, x ∈ allEntries r := by
    intro p hp x hx
    have hmem := List.mem_join.mpr ⟨p.2, List.mem_map_of_mem Prod.snd hp, hx⟩
    have h2 : allWalk (responseWalk r) =
        (List.map Prod.snd (responseWalk r)).flatten := rfl
    rw [← h2, allWalk_responseWalk r] at hmem
    exact hmem
  have hinv0 : indexAccInv (allEntries r)
      (([] : Dict AlloyModel), ([] : Dict ModalitySet)) := by
    constructor
    · intro id x hx
      cases hx
    · exact List.nodup_nil
  obtain ⟨hinv, hget, hcat⟩ :=
    indexWalk_process (allEntries r) hcons2 (responseWalk r)
      (([] : Dict AlloyModel), ([] : Dict ModalitySet)) hsub hinv0
  rw [← indexModels_eq_indexWalkFrom] at hinv hget hcat
  refine ⟨hinv.1, hinv.2, ?_, ?_⟩
  · intro id
    rw [hget id]
    simp [Dict.get]
  · intro id b
    rw [hcat id b]
    simp [containsOf, Dict.get, ModalitySet.empty, ModalitySet.contains]
    cases b <;> simp [ModalitySet.contains, ModalitySet.empty]

theorem mergeInner_single (node : NodeState) (l : List (String × AlloyModel)) :
    ∀ (s : Dict AlloyModel) (c : Dict ModalitySet),
      (∀ p ∈ l, Dict.get s p.1 = none) →
      (∀ p ∈ l, Dict.get c p.1 = none) →
      ((l.map Prod.fst).Nodup) →
      (l.foldl (mergeEntry node) (s, c)).1 = Dict.entries s ++ l ∧
      (∀ id, ((l.foldl (mergeEntry node) (s, c)).2).get id =
        if (Dict.get l id).isSome then
          some ((node.categories_by_model_id.get id).getD ModalitySet.empty)
        else Dict.get c id) := by
  induction l with
  | nil =>
      intro s c _ _ _
      exact ⟨by simp [Dict.entries], fun id => rfl⟩
  | cons p rest ih =>
      intro s c hs hc hnodup
      rw [List.map_cons, List.nodup_cons] at hnodup
      have hsp : Dict.get s p.1 = none := hs p (List.mem_cons_self _ _)
      have hcp : Dict.get c p.1 = none := hc p (List.mem_cons_self _ _)
      have hstep : mergeEntry node (s, c) p =
          (Dict.set s p.1 p.2,
            Dict.set c p.1
              ((node.categories_by_model_id.get p.1).getD ModalitySet.empty)) := by
        rw [mergeEntry]
        simp only [hsp, hcp, Option.getD_none, ms_union_empty]
      have hfresh_s : ∀ q ∈ rest, Dict.get (Dict.set s p.1 p.2) q.1 = none := by
        intro q hq
        have hne : p.1 ≠ q.1 := by
          intro he
          exact hnodup.1 (he ▸ List.mem_map_of_mem Prod.fst hq)
        rw [dget_set_ne _ _ _ _ hne]
        exact hs q (List.mem_cons_of_mem _ hq)
      have hfresh_c : ∀ q ∈ rest,
          Dict.get (Dict.set c p.1
            ((node.categories_by_model_id.get p.1).getD ModalitySet.empty)) q.1 = none := by
        intro q hq
        have hne : p.1 ≠ q.1 := by
          intro he
          exact hnodup.1 (he ▸ List.mem_map_of_mem Prod.fst hq)
        rw [dget_set_ne _ _ _ _ hne]
        exact hc q (List.mem_cons_of_mem _ hq)
      obtain ⟨jfst, jsnd⟩ := ih (Dict.set s p.1 p.2)
        (Dict.set c p.1 ((node.categories_by_model_id.get p.1).getD ModalitySet.empty))
        hfresh_s hfresh_c hnodup.2
      rw [List.foldl_cons, hstep]
      constructor
      · rw [jfst]
        rw [show Dict.entries (Dict.set s p.1 p.2) = Dict.set s p.1 p.2 from rfl]
        rw [dset_eq_append _ _ _ hsp, List.append_assoc]
        rfl
      · intro id
        rw [jsnd id, dget_cons]
        by_cases hid : p.1 = id
        · subst hid
          have hrest : Dict.get rest p.1 = none := by
            rw [dget_eq_none_iff]
            intro q hq he
            exact hnodup.1 (he ▸ List.mem_map_of_mem Prod.fst hq)
          rw [hrest, if_pos rfl]
          simp [dget_set_self]
        · rw [if_neg hid]
          cases hrid : Dict.get rest id with
          | none =>
              simp only [hrid, Option.isSome_none, Bool.false_eq_true, if_false]
              exact dget_set_ne _ _ _ _ hid
          | some q =>
              simp [hrid]

theorem modelSummary_single (node : NodeState)
    (hnodup : (node.models.keys).Nodup) :
    (modelSummary [node]).1 = node.models ∧
    (∀ id, ((modelSummary [node]).2).get id =
      if (node.models.get id).isSome then
        some ((node.categories_by_model_id.get id).getD ModalitySet.empty)
      else none) := by
  have h := mergeInner_single node node.models.entries
    ([] : Dict AlloyModel) ([] : Dict ModalitySet)
    (fun p _ => rfl) (fun p _ => rfl) hnodup
  constructor
  · rw [show (modelSummary [node]).1 =
      (node.models.entries.foldl (mergeEntry node)
        (([] : Dict AlloyModel), ([] : Dict ModalitySet))).1 from rfl]
    rw [h.1]
    rfl
  · intro id
    rw [show (modelSummary [node]).2 =
      (node.models.entries.foldl (mergeEntry node)
        (([] : Dict AlloyModel), ([] : Dict ModalitySet))).2 from rfl]
    rw [h.2 id]
    rfl

theorem bucketList_combinedModels (nodes : List NodeState) (b : Modality) :
    bucketList (combinedModels nodes) b =
      (bucketOf (modelSummary nodes).1 (modelSummary nodes).2 b).mergeSort
        modelIdLe := by
  cases b <;> rfl

theorem mem_bucketOf (summary : Dict AlloyModel) (cats : Dict ModalitySet)
    (b : Modality) (x : AlloyModel) :
    x ∈ bucketOf summary cats b ↔
      ∃ p ∈ summary.entries,
        (groupCategories (cats.get p.1) p.2).contains b = true ∧ p.2 = x := by
  rw [bucketOf]
  constructor
  · intro hx
    obtain ⟨p, hp, hpx⟩ := List.mem_map.mp hx
    obtain ⟨hpm, hpf⟩ := List.mem_filter.mp hp
    exact ⟨p, hpm, by simpa using hpf, hpx⟩
  · rintro ⟨p, hpm, hpf, hpx⟩
    apply List.mem_map.mpr
    exact ⟨p, List.mem_filter.mpr ⟨hpm, by simpa using hpf⟩, hpx⟩

theorem occursAt_responseWalk (r : AlloyModelsResponse) (b : Modality)
    (id : String) :
    occursAt (responseWalk r) b id ↔ ∃ y ∈ bucketList r b, y.model_id = id := by
  cases b <;> simp [occursAt, responseWalk, bucketList]

theorem mem_allEntries_of_mem_bucket (r : AlloyModelsResponse) (b : Modality)
    (y : AlloyModel) (hy : y ∈ bucketList r b) : y ∈ allEntries r := by
  cases b <;> simp [bucketList] at hy <;> simp [allEntries, hy]

theorem occursIn_iff_exists_occursAt (walk : List (Modality × List AlloyModel))
    (id : String) : occursIn walk id ↔ ∃ b, occursAt walk b id := by
  constructor
  · rintro ⟨y, hy, hyid⟩
    rw [show allWalk walk = (walk.map Prod.snd).flatten from rfl] at hy
    obtain ⟨l, hl, hyl⟩ := List.mem_join.mp hy
    obtain ⟨q, hq, rfl⟩ := List.mem_map.mp hl
    exact ⟨q.1, q, hq, rfl, y, hyl, hyid⟩
  · rintro ⟨b, q, hq, hqb, y, hy, hyid⟩
    refine ⟨y, ?_, hyid⟩
    rw [show allWalk walk = (walk.map Prod.snd).flatten from rfl]
    exact List.mem_join.mpr ⟨q.2, List.mem_map_of_mem Prod.snd hq, hy⟩

theorem groupCategories_some_ne_empty (s : ModalitySet) (model : AlloyModel)
    (h : s.isEmpty = false) : groupCategories (some s) model = s := by
  rw [groupCategories]
  rw [if_neg (by
    rintro ⟨h1, _⟩
    rw [h] at h1
    cases h1)]

/-- C9 (amended).  For a response in which all occurrences of a model id
carry identical fields, indexing then aggregating the single resulting
node yields, bucket for bucket, exactly the models the original response
placed there — so the model set and per-model fields are preserved, and
bucket placement follows the input's placement (which coincides with
capability outputs only when the input already groups by outputs). -/
theorem claim_roundtrip_preserves_buckets (r : AlloyModelsResponse)
    (hcons : responseConsistent r) :
    ∀ (b : Modality) (x : AlloyModel),
      x ∈ bucketList (singleNodeRoundTrip r) b ↔ x ∈ bucketList r b := by
  obtain ⟨hstore, hnodup, hsome, hcat⟩ := indexModels_spec r hcons
  have hmodels : (nodeFromResponse r).models = (indexModels r).1 := rfl
  have hcats2 : (nodeFromResponse r).categories_by_model_id =
    (indexModels r).2 := rfl
  obtain ⟨hsummary, hmerged⟩ := modelSummary_single (nodeFromResponse r)
    (by rw [hmodels]; exact hnodup)
  intro b x
  rw [show singleNodeRoundTrip r = combinedModels [nodeFromResponse r] from rfl]
  rw [bucketList_combinedModels, List.mem_mergeSort, mem_bucketOf]
  constructor
  · rintro ⟨p, hpm, hpf, rfl⟩
    rw [show Dict.entries (modelSummary [nodeFromResponse r]).1 =
      (modelSummary [nodeFromResponse r]).1 from rfl, hsummary] at hpm
    have hget : Dict.get (nodeFromResponse r).models p.1 = some p.2 :=
      dmem_of_nodup_get _ (by rw [hmodels]; exact hnodup) p hpm
    have hsf := hstore p.1 p.2 (by rw [← hmodels]; exact hget)
    have hsome2 : (Dict.get (nodeFromResponse r).models p.1).isSome = true := by
      rw [hget]
      rfl
    have hmc : ((modelSummary [nodeFromResponse r]).2).get p.1 =
        some (((nodeFromResponse r).categories_by_model_id.get p.1).getD
          ModalitySet.empty) := by
      rw [hmerged p.1, if_pos hsome2]
    rw [hmc] at hpf
    have hocc : occursIn (responseWalk r) p.1 := (hsome p.1).mp (by
      rw [← hmodels]
      exact hsome2)
    obtain ⟨b0, hoccAt0⟩ := (occursIn_iff_exists_occursAt _ _).mp hocc
    have hsne : (((nodeFromResponse r).categories_by_model_id.get p.1).getD
        ModalitySet.empty).contains b0 = true := by
      have hco := (hcat p.1 b0).mpr hoccAt0
      rw [containsOf] at hco
      rw [hcats2]
      exact hco
    have hnem := ms_not_empty_of_contains _ _ hsne
    rw [groupCategories_some_ne_empty _ _ hnem] at hpf
    have hoccb : occursAt (responseWalk r) b p.1 := by
      apply (hcat p.1 b).mp
      rw [containsOf, ← hcats2]
      exact hpf
    obtain ⟨y2, hy2, hy2id⟩ := (occursAt_responseWalk r b p.1).mp hoccb
    have hyx : y2 = p.2 := hcons y2 (mem_allEntries_of_mem_bucket r b y2 hy2)
      p.2 hsf.2 (by rw [hy2id, hsf.1])
    rw [← hyx]
    exact hy2
  · intro hx
    have hxall : x ∈ allEntries r := mem_allEntries_of_mem_bucket r b x hx
    have hoccAt : occursAt (responseWalk r) b x.model_id :=
      (occursAt_responseWalk r b _).mpr ⟨x, hx, rfl⟩
    have hocc : occursIn (responseWalk r) x.model_id :=
      (occursIn_iff_exists_occursAt _ _).mpr ⟨b, hoccAt⟩
    have hsome2 : (((indexModels r).1).get x.model_id).isSome = true :=
      (hsome _).mpr hocc
    obtain ⟨x', hx'⟩ := Option.isSome_iff_exists.mp hsome2
    have hsf := hstore _ x' hx'
    have hxx : x' = x := hcons x' hsf.2 x hxall hsf.1
    subst hxx
    refine ⟨(x'.model_id, x'), ?_, ?_, rfl⟩
    · rw [show Dict.entries (modelSummary [nodeFromResponse r]).1 =
        (modelSummary [nodeFromResponse r]).1 from rfl, hsummary]
      exact dget_mem _ _ _ (by rw [hmodels, hsf.1]; exact hx')
    · have hsome3 : (Dict.get (nodeFromResponse r).models x'.model_id).isSome
          = true := by
        rw [hmodels, hsf.1, hx']
        rfl
      rw [hmerged x'.model_id, if_pos hsome3]
      have hsne : (((nodeFromResponse r).categories_by_model_id.get
          x'.model_id).getD ModalitySet.empty).contains b = true := by
        have hco := (hcat x'.model_id b).mpr (by rw [hsf.1]; exact hoccAt)
        rw [containsOf] at hco
        rw [hcats2]
        exact hco
      rw [groupCategories_some_ne_empty _ _ (ms_not_empty_of_contains _ _ hsne)]
      exact hsne

/-- C9 counterexample.  A model listed only under `image` whose sole
capability output is `text` round-trips into the `image` bucket and not
the `text` bucket, refuting "buckets matching its outputs"; and with two
inconsistent occurrences of one id, the re-emitted `text` bucket carries
the first occurrence's fields, not the original ones. -/
theorem claim_roundtrip_counterexample :
    mismatchResponse.image = [mismatchModel] ∧
    outputsOfCapabilities mismatchModel.capabilities =
      { hasText := true } ∧
    bucketList (singleNodeRoundTrip mismatchResponse) Modality.text = [] ∧
    bucketList (singleNodeRoundTrip mismatchResponse) Modality.image =
      [mismatchModel] ∧
    bucketList (singleNodeRoundTrip dupResponse) Modality.text = [dupModelA] ∧
    dupModelA.active_requests = 0 ∧
    bucketList dupResponse Modality.text = [dupModelB] ∧
    dupModelB.active_requests = 5 := by
  refine ⟨rfl, by decide, ?_, ?_, ?_, rfl, rfl, rfl⟩
  · rw [show singleNodeRoundTrip mismatchResponse =
      combinedModels [nodeFromResponse mismatchResponse] from rfl,
      bucketList_combinedModels]
    rw [show bucketOf (modelSummary [nodeFromResponse mismatchResponse]).1
      (modelSummary [nodeFromResponse mismatchResponse]).2 Modality.text =
      [] from by decide]
    exact List.mergeSort_nil
  · rw [show singleNodeRoundTrip mismatchResponse =
      combinedModels [nodeFromResponse mismatchResponse] from rfl,
      bucketList_combinedModels]
    rw [show bucketOf (modelSummary [nodeFromResponse mismatchResponse]).1
      (modelSummary [nodeFromResponse mismatchResponse]).2 Modality.image =
      [mismatchModel] from by decide]
    exact List.mergeSort_singleton _
  · rw [show singleNodeRoundTrip dupResponse =
      combinedModels [nodeFromResponse dupResponse] from rfl,
      bucketList_combinedModels]
    rw [show bucketOf (modelSummary [nodeFromResponse dupResponse]).1
      (modelSummary [nodeFromResponse dupResponse]).2 Modality.text =
      [dupModelA] from by decide]
    exact List.mergeSort_singleton _

/-- C7 (amended).  With `stream=true` on chat or audio, the
streaming-unsupported error is raised inside the per-node client during
invocation: node selection runs first (and its failure, such as
`NoCandidateNode`, preempts the streaming error), the chosen node's
counters are incremented and then decremented, and the error propagates
afterwards. -/
theorem claim_streaming_unsupported_after_selection (env : Env)
    (mgr : Manager) (model : String) :
    (∀ mgr1 i, selectNodeForModel env mgr model = (mgr1, Except.ok i) →
      managerChat env mgr model true =
        (decrementAt (incrementAt mgr1 i model) i model,
          Except.error (ManagerError.streamingUnsupported "chat")) ∧
      managerAudio env mgr model true =
        (decrementAt (incrementAt mgr1 i model) i model,
          Except.error (ManagerError.streamingUnsupported "audio"))) ∧
    (∀ mgr1 e, selectNodeForModel env mgr model = (mgr1, Except.error e) →
      managerChat env mgr model true = (mgr1, Except.error e) ∧
      managerAudio env mgr model true = (mgr1, Except.error e)) := by
  constructor
  · intro mgr1 i hsel
    constructor
    · simp [managerChat, simpleDispatch, hsel]
    · simp [managerAudio, simpleDispatch, hsel]
  · intro mgr1 e hsel
    constructor
    · simp [managerChat, simpleDispatch, hsel]
    · simp [managerAudio, simpleDispatch, hsel]

/-- C7 counterexample.  Calling chat with `stream=true` on a manager with
no candidate for the model surfaces `NoCandidateNode`, not the
streaming-unsupported error — so the streaming error is not raised
before node selection as claimed. -/
theorem claim_streaming_counterexample :
    (managerChat envEmpty mgrNoModels "m" true).2 =
      Except.error (ManagerError.noCandidateNode "m") ∧
    ∀ op, (Except.error (ManagerError.noCandidateNode "m") :
        Except ManagerError Unit) ≠
      Except.error (ManagerError.streamingUnsupported op) := by
  constructor
  · rfl
  · intro op h
    simp at h

/-- Witness for C1 at a concrete node: the score evaluates to 0.77. -/
theorem claim_score_formula_witness :
    nodeScore sampleNode "qwen-image" = ((77 / 100 : ℚ) : WithTop ℚ) := by
  rw [(claim_score_formula sampleNode "qwen-image").1 sampleModel rfl rfl]
  rw [WithTop.coe_inj]
  rw [show sampleModel.active_requests = 1 from rfl]
  rw [show (sampleNode.local_inflight_by_model.get "qwen-image").getD 0 = 0 from rfl]
  rw [show sampleModel.supports_concurrent_requests = true from rfl]
  rw [show sampleModel.allocation_status = AllocationStatus.allocated from rfl]
  rw [show sampleNode.supported_model_count = 1 from rfl]
  rw [show sampleNode.local_inflight_total = 0 from rfl]
  rw [show sampleNode.remote_active_total = 1 from rfl]
  rw [show sampleNode.weight = 1 from rfl]
  rw [show (max (1 : ℚ) 0) = 1 from max_eq_left (by norm_num)]
  norm_num

/-- Witness for C2 at a concrete manager: the selected index 0 is a
candidate. -/
theorem claim_select_node_witness :
    0 ∈ candidates mgrSample "qwen-image" :=
  ((claim_select_node envSample mgrSample "qwen-image").2.2 mgrSample 0
    (by rfl)).1

/-- Witness for C4 at a single node caching one model. -/
theorem claim_aggregation_entry_witness :
    ∃ entry, ((modelSummary [sampleNode]).1).get "qwen-image" = some entry ∧
      entry.active_requests = 1 := by
  obtain ⟨entry, h1, h2, _⟩ := claim_aggregation_entry [sampleNode]
    "qwen-image" sampleModel [] (by decide) (by decide)
  exact ⟨entry, h1, by rw [h2]; rfl⟩

/-- Witness for C5: incrementing a fresh node preserves the invariant. -/
theorem claim_inflight_invariant_witness :
    inflightInvariant (incNode sampleNode "qwen-image") := by
  refine (claim_inflight_invariant sampleNode "qwen-image").1 ⟨rfl, ?_⟩
  intro p hp
  exact absurd hp (List.not_mem_nil p)

/-- Witness for C6: the empty node list fails construction. -/
theorem claim_construction_failure_iff_witness :
    ∃ e, initManager envEmpty [] NodeQueryMode.local_only 2 false =
      Except.error e :=
  (claim_construction_failure_iff envEmpty [] NodeQueryMode.local_only 2
    false).mpr (Or.inl rfl)

/-- Witness for C8: a successful refresh of the sample node clears its
error field. -/
theorem claim_refresh_per_node_witness :
    ∃ nd, (refreshNodeList envSample [sampleNode] none).1[0]? = some nd ∧
      nd.last_refresh_error = none := by
  have h := (claim_refresh_per_node envSample [sampleNode] none 0 sampleNode
    rfl (by decide)).2 sampleResponse rfl
  exact ⟨_, h, rfl⟩

/-- Witness for C10: with two nodes named alike, the earlier one is not
targeted by a full refresh. -/
theorem claim_duplicate_name_shadowing_witness :
    targeted mgrDup.nodes none 0 dupNodeA = false :=
  (claim_duplicate_name_shadowing mgrDup 0 1 dupNodeA dupNodeB (by decide)
    rfl rfl rfl).1 none

/-- Witness for C9 (amended): the sample model round-trips into the image
bucket it came from. -/
theorem claim_roundtrip_preserves_buckets_witness :
    sampleModel ∈ bucketList (singleNodeRoundTrip sampleResponse)
      Modality.image :=
  (claim_roundtrip_preserves_buckets sampleResponse
    (by
      intro y hy z hz _
      have hy2 : y = sampleModel := by
        simpa [allEntries, sampleResponse] using hy
      have hz2 : z = sampleModel := by
        simpa [allEntries, sampleResponse] using hz
      rw [hy2, hz2])
    Modality.image sampleModel).mpr (by decide)

/-- Witness for C7 (amended): with a selectable node, streaming chat
fails with the streaming-unsupported error after selection. -/
theorem claim_streaming_unsupported_after_selection_witness :
    managerChat envSample mgrSample "qwen-image" true =
      (decrementAt (incrementAt mgrSample 0 "qwen-image") 0 "qwen-image",
        Except.error (ManagerError.streamingUnsupported "chat")) :=
  ((claim_streaming_unsupported_after_selection envSample mgrSample
    "qwen-image").1 mgrSample 0 (by rfl)).1

end Alloy
